import Mathlib

/-!
GoFig: change resolution over JSON documents.

A shallow embedding of `change.go` (the `Change` entity and its resolution
steps) together with the merge-diff / merge-patch engines it calls.

* Documents are values of the closed JSON value type `Value`.  A Go
  `map[string]any` is an `Object`: an association list of members.  Objects are
  kept in the order `encoding/json` writes them (keys strictly increasing), so
  that structural equality of documents is equality of terms; the predicate
  `Object.canon` states that invariant.
* A possibly-nil Go map is an `Option Object`.
* JSON text (`[]byte`, `string`) is a `JsonText`: the empty string, text that
  does not decode, or the encoding of a value.  The engines read the encoded
  value as it is; `json.Unmarshal` into a `map[string]any` (`unmarshalMap`)
  reads every number as a float64.
* The functions `applyDiffPatch`, `getDiffPatch` and `prettydiff`, which
  `change.go` calls and does not define, are the fields of `Engines`; the
  resolution steps take them as a parameter, and `specEngines` supplies the
  engines of sections 4.2 and 4.3 of the specification.
* The document store is a `Firestore σ`: each method takes the store from one
  state to the next and reports an error, so `pushChange` maps a store state
  to the state after its call and the error of that call.
* A method with a pointer receiver that returns `error` becomes a function
  `Change → Change × Option Error`: the state after the call and the error.
-/

namespace GoFig

/-! ## JSON value model -/

/-- The JSON value type: the values `encoding/json` can hold in an `any`.
Numbers are represented by an integer payload; the engines only ever compare
numbers for equality, and `json.Unmarshal` decodes them as float64
(`unmarshalNumber`). -/
inductive Value where
  | null
  | bool (b : Bool)
  | num (n : Int)
  | str (s : String)
  | arr (xs : List Value)
  | obj (m : List (String × Value))

/-- A JSON object body, the `map[string]any` of the source. -/
abbrev Object := List (String × Value)

mutual
/-- Structural equality test on values. -/
def Value.beq : Value → Value → Bool
  | .null, .null => true
  | .bool a, .bool b => a == b
  | .num a, .num b => a == b
  | .str a, .str b => a == b
  | .arr xs, .arr ys => Value.beqElems xs ys
  | .obj m, .obj n => Value.beqMembers m n
  | _, _ => false
/-- Structural equality test on arrays: same length, equal element by element. -/
def Value.beqElems : List Value → List Value → Bool
  | [], [] => true
  | x :: xs, y :: ys => Value.beq x y && Value.beqElems xs ys
  | _, _ => false
/-- Structural equality test on member lists. -/
def Value.beqMembers : List (String × Value) → List (String × Value) → Bool
  | [], [] => true
  | (k, x) :: xs, (l, y) :: ys => k == l && Value.beq x y && Value.beqMembers xs ys
  | _, _ => false
end

/-! ## Objects as maps -/

/-- Order of member keys: the byte order `encoding/json` sorts map keys by. -/
def keyLt (k l : String) : Prop := k.data < l.data

instance (k l : String) : Decidable (keyLt k l) :=
  inferInstanceAs (Decidable (k.data < l.data))

namespace Object

/-- The value stored under a key, as `v, ok := m[k]`. -/
def lookup (k : String) : Object → Option Value
  | [] => none
  | (l, v) :: rest => if l = k then some v else lookup k rest

/-- Remove a key, as `delete(m, k)`. -/
def erase (k : String) : Object → Object
  | [] => []
  | (l, v) :: rest => if l = k then erase k rest else (l, v) :: erase k rest

/-- Store a value under a key, as `m[k] = v`. -/
def insert (k : String) (v : Value) : Object → Object
  | [] => [(k, v)]
  | (l, w) :: rest =>
    if keyLt k l then (k, v) :: (l, w) :: rest
    else if l = k then (k, v) :: rest
    else (l, w) :: insert k v rest

/-- Keys strictly increasing: the object is a map written in key order. -/
def sortedKeys : Object → Bool
  | [] => true
  | [_] => true
  | (k, _) :: (l, w) :: rest => decide (keyLt k l) && sortedKeys ((l, w) :: rest)

end Object

mutual
/-- A value is canonical when every object inside it has strictly increasing keys. -/
def Value.canon : Value → Bool
  | .arr xs => Value.canonElems xs
  | .obj m => Object.sortedKeys m && Value.canonMembers m
  | _ => true
/-- Every element of an array is canonical. -/
def Value.canonElems : List Value → Bool
  | [] => true
  | x :: xs => Value.canon x && Value.canonElems xs
/-- Every member value of an object is canonical. -/
def Value.canonMembers : List (String × Value) → Bool
  | [] => true
  | (_, x) :: m => Value.canon x && Value.canonMembers m
end

/-- An object is canonical: keys strictly increasing, here and in every nested object. -/
def Object.canon (m : Object) : Bool := Value.canon (.obj m)

mutual
/-- A member value that is not `null` and, when it is an object, has no
`null` member itself (arrays are atomic and are not inspected). -/
def Value.noNull : Value → Bool
  | .null => false
  | .obj m => Object.noNull m
  | _ => true
/-- No member of the object is `null`, here and in every object nested under
object members. -/
def Object.noNull : List (String × Value) → Bool
  | [] => true
  | (_, v) :: rest => Value.noNull v && Object.noNull rest
end

/-! ## Merge-patch and merge-diff engines -/

mutual
/-- Modelled from the spec: one step of the merge-patch engine of section 4.3,
for the patch member `k` with the value given last: a `null` removes the key
from the result, an object over an existing object is merged recursively and
stored, anything else is stored verbatim. -/
def mergeKey (result : Object) (k : String) : Value → Object
  | .null => Object.erase k result
  | .obj pm =>
    match Object.lookup k result with
    | some (.obj bm) => Object.insert k (.obj (merge bm pm)) result
    | _ => Object.insert k (.obj pm) result
  | pv => Object.insert k pv result
/-- Modelled from the spec: the merge-patch engine of section 4.3 on objects
(the body of `applyDiffPatch`, which is not among the sources).  Start from
`base` and apply every member of `patch`. -/
def merge (base : Object) : List (String × Value) → Object
  | [] => base
  | (k, pv) :: rest => merge (mergeKey base k pv) rest
end

/-- Modelled from the spec: section 4.2, second rule.  Every key of `a` (the
last argument) that is absent from `b` is set to `null` in the patch `p`. -/
def diffRemoved (b : Object) (p : Object) : Object → Object
  | [] => p
  | (k, _) :: rest =>
    match Object.lookup k b with
    | none => Object.insert k .null (diffRemoved b p rest)
    | some _ => diffRemoved b p rest

mutual
/-- Modelled from the spec: section 4.2, first and third rule, for the key `k`
of `b` with the value given last, where `va` is what `a` holds under `k` and
`p` is the patch.  A key absent from `a` carries `b`'s value; when both values
are objects the key carries their recursive diff, and is omitted when that
diff is empty; otherwise it carries `b`'s value when the two values differ. -/
def diffKey (va : Option Value) (k : String) (p : Object) : Value → Object
  | .obj mb =>
    match va with
    | none => Object.insert k (.obj mb) p
    | some (.obj ma) =>
      let d := diffRemoved mb (diffPresent ma mb) ma
      if d.isEmpty then p else Object.insert k (.obj d) p
    | some va => if Value.beq va (.obj mb) then p else Object.insert k (.obj mb) p
  | vb =>
    match va with
    | none => Object.insert k vb p
    | some va => if Value.beq va vb then p else Object.insert k vb p
/-- Modelled from the spec: section 4.2, the patch members for the keys of `b`. -/
def diffPresent (a : Object) : List (String × Value) → Object
  | [] => []
  | (k, vb) :: rest => diffKey (Object.lookup k a) k (diffPresent a rest) vb
end

/-- Modelled from the spec: the merge-diff engine of section 4.2 on objects
(the body of `getDiffPatch`, which is not among the sources). -/
def diff (a b : Object) : Object := diffRemoved b (diffPresent a b) a

/-! ## JSON text and the byte-level engines -/

/-- The errors of the system.  The first five are the messages `change.go`
creates with `errors.New`; `invalidRoot` and `parseError` are the engine
errors of section 7; `other` stands for any further error an engine reports. -/
inductive Error where
  | notYetSolved
  | needBeforeAndPatch
  | needAfterForCommand
  | needBeforeAfterForRollback
  | needBeforeAfterForPrettyDiff
  | invalidRoot
  | parseError
  | other (msg : String)
  deriving DecidableEq

/-- The `MissingInput` kind of section 7: a resolution step lacks a field it requires. -/
def Error.isMissingInput : Error → Bool
  | .needBeforeAndPatch => true
  | .needAfterForCommand => true
  | .needBeforeAfterForRollback => true
  | .needBeforeAfterForPrettyDiff => true
  | _ => false

/-- JSON text as `encoding/json` reads it: the empty string, a non-empty
string that does not decode, or the encoding of a value.  Two texts that
encode the same value are identified. -/
inductive JsonText where
  | empty
  | malformed (raw : String)
  | encoded (v : Value)

/-- The test `s == ""`. -/
def JsonText.isEmpty : JsonText → Bool
  | .empty => true
  | _ => false

/-- The text `json.Marshal` writes for a map: `null` for a nil map. -/
def marshalMap : Option Object → JsonText
  | none => .encoded .null
  | some m => .encoded (.obj m)

/-- The number of low bits a natural number loses when it is written with 53
significant bits: the least `e`, counted up from the last argument, with
`n >>> e < 2 ^ 53`. -/
def float64Shift : Nat → Nat → Nat → Nat
  | 0, _, e => e
  | fuel + 1, n, e => if n >>> e < 2 ^ 53 then e else float64Shift fuel n (e + 1)

/-- The float64 nearest to a natural number, as `strconv.ParseFloat` chooses
it: the number itself when it has at most 53 significant bits, otherwise the
nearest number with 53 significant bits, a tie going to the even one; `none`
when the number rounds beyond the largest float64, `(2 ^ 53 - 1) * 2 ^ 971`. -/
def float64Nat (n : Nat) : Option Nat :=
  if (2 ^ 54 - 1) <<< 970 ≤ n then none
  else
    let e := float64Shift 971 n 0
    let q := n >>> e
    let r := n - q <<< e
    let half := 1 <<< (e - 1)
    if e = 0 then some n
    else if r < half then some (q <<< e)
    else if half < r then some ((q + 1) <<< e)
    else if q % 2 = 0 then some (q <<< e)
    else some ((q + 1) <<< e)

/-- What `json.Unmarshal` stores in an `any` for a number: the nearest
float64.  For a number out of the float64 range it stores nothing, so the
`any` stays nil, and reports an error. -/
def unmarshalNumber (n : Int) : Value :=
  match float64Nat n.natAbs with
  | none => .null
  | some m => .num (if n < 0 then -(m : Int) else (m : Int))

mutual
/-- What `json.Unmarshal` stores in an `any` for a value: numbers become
float64, arrays and objects are decoded member by member. -/
def Value.unmarshalAny : Value → Value
  | .num n => unmarshalNumber n
  | .arr xs => .arr (Value.unmarshalElems xs)
  | .obj m => .obj (Value.unmarshalMembers m)
  | v => v
/-- The elements of an array, each decoded into an `any`. -/
def Value.unmarshalElems : List Value → List Value
  | [] => []
  | x :: xs => Value.unmarshalAny x :: Value.unmarshalElems xs
/-- The members of an object, each value decoded into an `any`. -/
def Value.unmarshalMembers : List (String × Value) → List (String × Value)
  | [] => []
  | (k, x) :: m => (k, Value.unmarshalAny x) :: Value.unmarshalMembers m
end

/-- The map `json.Unmarshal` leaves in a nil `map[string]any` variable, the
error it may report being ignored as `inferAfter` does: the object the text
encodes, every number decoded as a float64, and nil when the text is `null`,
encodes something else, or does not decode. -/
def unmarshalMap : JsonText → Option Object
  | .encoded (.obj m) => some (Value.unmarshalMembers m)
  | _ => none

/-- Modelled from the spec: the root operand of an engine (sections 4.2 and
4.3).  It must be an object, `null` standing for the empty object; another
value is `InvalidRoot`, undecodable text is `ParseError`. -/
def decodeRoot : JsonText → Except Error Object
  | .encoded (.obj m) => .ok m
  | .encoded .null => .ok []
  | .encoded _ => .error .invalidRoot
  | _ => .error .parseError

/-- Modelled from the spec: the patch operand of the merge-patch engine
(section 4.3), which must decode to an object. -/
def decodePatch : JsonText → Except Error Object
  | .encoded (.obj m) => .ok m
  | .encoded _ => .error .invalidRoot
  | _ => .error .parseError

/-- Modelled from the spec: `applyDiffPatch`, called by `inferAfter` and not
among the sources: the merge-patch engine of section 4.3 on JSON text. -/
def applyDiffPatch (bm pm : JsonText) : Except Error JsonText :=
  match decodeRoot bm with
  | .error e => .error e
  | .ok base =>
    match decodePatch pm with
    | .error e => .error e
    | .ok patch => .ok (.encoded (.obj (merge base patch)))

/-- Modelled from the spec: `getDiffPatch`, called by `inferRollback` and not
among the sources: the merge-diff engine of section 4.2 on JSON text. -/
def getDiffPatch (a b : JsonText) : Except Error JsonText :=
  match decodeRoot a with
  | .error e => .error e
  | .ok ma =>
    match decodeRoot b with
    | .error e => .error e
    | .ok mb => .ok (.encoded (.obj (diff ma mb)))

/-! ## Pretty diff -/

mutual
/-- Compact rendering of a value, used in the lines of the pretty diff. -/
def Value.text : Value → String
  | .null => "null"
  | .bool true => "true"
  | .bool false => "false"
  | .num n => toString n
  | .str s => s.quote
  | .arr xs => "[" ++ Value.textElems xs ++ "]"
  | .obj m => "\x7b" ++ Value.textMembers m ++ "\x7d"
/-- Rendering of the elements of an array. -/
def Value.textElems : List Value → String
  | [] => ""
  | x :: xs => Value.text x ++ (if xs.isEmpty then "" else ",") ++ Value.textElems xs
/-- Rendering of the members of an object. -/
def Value.textMembers : List (String × Value) → String
  | [] => ""
  | (k, x) :: m =>
    k.quote ++ ":" ++ Value.text x ++ (if m.isEmpty then "" else ",") ++ Value.textMembers m
end

/-- Modelled from the spec: section 4.4, the lines for the keys of `before`
(the last argument) that are absent from `after`, marked as deletions. -/
def prettyRemoved (indent : String) (after : Object) : Object → List String
  | [] => []
  | (k, v) :: rest =>
    match Object.lookup k after with
    | none => (indent ++ "- " ++ k ++ ": " ++ Value.text v) :: prettyRemoved indent after rest
    | some _ => prettyRemoved indent after rest

mutual
/-- Modelled from the spec: section 4.4, the lines for one key of `after` with
the value given last, where `vb` is what `before` holds under the key: an
addition, a nested object rendered recursively one level deeper, or a
modification; nothing when the value is unchanged. -/
def prettyKey (indent : String) (vb : Option Value) (k : String) : Value → List String
  | .obj ma =>
    match vb with
    | none => [indent ++ "+ " ++ k ++ ": " ++ Value.text (.obj ma)]
    | some (.obj mb) =>
      let ls := prettyPresent (indent ++ "  ") mb ma ++ prettyRemoved (indent ++ "  ") ma mb
      if ls.isEmpty then [] else (indent ++ "  " ++ k ++ ":") :: ls
    | some vb =>
      if Value.beq vb (.obj ma) then []
      else [indent ++ "~ " ++ k ++ ": " ++ Value.text vb ++ " -> " ++ Value.text (.obj ma)]
  | va =>
    match vb with
    | none => [indent ++ "+ " ++ k ++ ": " ++ Value.text va]
    | some vb =>
      if Value.beq vb va then []
      else [indent ++ "~ " ++ k ++ ": " ++ Value.text vb ++ " -> " ++ Value.text va]
/-- Modelled from the spec: section 4.4, the lines for the keys of `after`, in key order. -/
def prettyPresent (indent : String) (before : Object) : List (String × Value) → List String
  | [] => []
  | (k, va) :: rest =>
    prettyKey indent (Object.lookup k before) k va ++ prettyPresent indent before rest
end

/-- Modelled from the spec: `prettydiff`, called by `inferPrettyDiff` and not
among the sources (section 4.4): a line-oriented rendering that marks
additions, deletions and modifications and indents nested objects.  On the
closed value type it never fails. -/
def prettydiff (before after : Object) : Except Error String :=
  .ok (String.intercalate "\n" (prettyPresent "" before after ++ prettyRemoved "" after before))

/-- The three functions `change.go` calls and does not define. -/
structure Engines where
  applyDiffPatch : JsonText → JsonText → Except Error JsonText
  getDiffPatch : JsonText → JsonText → Except Error JsonText
  prettydiff : Object → Object → Except Error String

/-- The engines of the spec, with the given formatter for the pretty diff
(section 4.4 leaves the format to the implementation). -/
def specEngines (render : Object → Object → Except Error String) : Engines :=
  ⟨applyDiffPatch, getDiffPatch, render⟩

/-! ## Change -/

/-- The `Command` type of the source, an `int`. -/
abbrev Command := Int

/-- The sentinel command, the zero value. -/
def MigratorUnknown : Command := 0
/-- Merge-write. -/
def MigratorUpdate : Command := 1
/-- Replace-write. -/
def MigratorSet : Command := 2
/-- Create. -/
def MigratorAdd : Command := 3
/-- Delete the document. -/
def MigratorDelete : Command := 4

/-- The `Change` struct. -/
structure Change where
  docPath : String
  before : Option Object
  patch : Option Object
  after : Option Object
  instruction : JsonText
  command : Command
  prettyDiff : String
  rollback : JsonText
  errState : Option Error

/-- The constructor `NewChange`: the derived fields are zero values and
`errState` is preset to the "not yet solved" error. -/
def NewChange (docPath : String) (before patch : Option Object) (command : Command)
    (instruction : JsonText) : Change :=
  { docPath := docPath, before := before, patch := patch, after := none,
    instruction := instruction, command := command, prettyDiff := "",
    rollback := .empty, errState := some .notYetSolved }

/-- The method `inferAfter`. -/
def inferAfter (E : Engines) (c : Change) : Change × Option Error :=
  if c.command = MigratorSet then ({ c with after := c.patch }, none)
  else if c.command = MigratorAdd then ({ c with after := c.patch }, none)
  else if c.command = MigratorDelete then ({ c with after := some [] }, none)
  else if c.before.isNone || (c.patch.isNone && c.instruction.isEmpty) then
    (c, some .needBeforeAndPatch)
  else
    let bm := marshalMap c.before
    let pm := if c.patch.isSome then marshalMap c.patch else c.instruction
    match E.applyDiffPatch bm pm with
    | .error err => (c, some err)
    | .ok after => ({ c with after := unmarshalMap after }, none)

/-- The method `inferCommand`. -/
def inferCommand (c : Change) : Change × Option Error :=
  if c.command ≠ MigratorUnknown then (c, none)
  else
    match c.after with
    | none => (c, some .needAfterForCommand)
    | some after =>
      if after.length > 0 then ({ c with command := MigratorSet }, none)
      else ({ c with command := MigratorDelete }, none)

/-- The method `inferRollback`. -/
def inferRollback (E : Engines) (c : Change) : Change × Option Error :=
  if c.before.isNone || c.after.isNone then (c, some .needBeforeAfterForRollback)
  else
    let a := marshalMap c.after
    let b := marshalMap c.before
    match E.getDiffPatch a b with
    | .error err => (c, some err)
    | .ok r => ({ c with rollback := r }, none)

/-- The method `inferPrettyDiff`. -/
def inferPrettyDiff (E : Engines) (c : Change) : Change × Option Error :=
  match c.before, c.after with
  | some before, some after =>
    match E.prettydiff before after with
    | .error err => (c, some err)
    | .ok s => ({ c with prettyDiff := s }, none)
  | _, _ => (c, some .needBeforeAfterForPrettyDiff)

/-- The method `SolveChange`: clears `errState`, runs the four steps in order
and stops at the first error, which it stores in `errState` and returns. -/
def SolveChange (E : Engines) (c : Change) : Change × Option Error :=
  let c0 := { c with errState := none }
  match inferAfter E c0 with
  | (c1, some err) => ({ c1 with errState := some err }, some err)
  | (c1, none) =>
    match inferCommand c1 with
    | (c2, some err) => ({ c2 with errState := some err }, some err)
    | (c2, none) =>
      match inferPrettyDiff E c2 with
      | (c3, some err) => ({ c3 with errState := some err }, some err)
      | (c3, none) =>
        match inferRollback E c3 with
        | (c4, some err) => ({ c4 with errState := some err }, some err)
        | (c4, none) => (c4, none)

/-- The part of the `Firestore` interface that `pushChange` uses (its
declaration is not among the sources; the method signatures are those of the
mock in `mig_test.go`).  A method call takes the store from one state to the
next and reports an error or nil. -/
structure Firestore (σ : Type) where
  UpdateDoc : String → Option Object → σ → σ × Option Error
  SetDoc : String → Option Object → σ → σ × Option Error
  DeleteDoc : String → σ → σ × Option Error

/-- The method `pushChange`. -/
def pushChange {σ : Type} (database : Firestore σ) (c : Change) (s : σ) : σ × Option Error :=
  if c.command = MigratorUpdate then database.UpdateDoc c.docPath c.patch s
  else if c.command = MigratorSet then database.SetDoc c.docPath c.patch s
  else if c.command = MigratorAdd then database.SetDoc c.docPath c.patch s
  else database.DeleteDoc c.docPath s

/-! ## Auxiliary definitions for the statements and proofs -/

/-- Every key of `m` lies strictly above `k`. -/
def Object.Above (k : String) (m : Object) : Prop := ∀ e ∈ m, keyLt k e.1

/-- What a patch member with value `pv` leaves under its key, when the base
holds `av` there. -/
def mergeVal (av : Option Value) : Value → Option Value
  | .null => none
  | .obj pm =>
    match av with
    | some (.obj bm) => some (.obj (merge bm pm))
    | _ => some (.obj pm)
  | pv => some pv

/-- The patch member the diff writes for a key of `b` holding `vb`, when `a`
holds `va` there; `none` when the key is omitted. -/
def diffVal (va : Option Value) : Value → Option Value
  | .obj mb =>
    match va with
    | none => some (.obj mb)
    | some (.obj ma) => if (diff ma mb).isEmpty then none else some (.obj (diff ma mb))
    | some va => if Value.beq va (.obj mb) then none else some (.obj mb)
  | vb =>
    match va with
    | none => some vb
    | some va => if Value.beq va vb then none else some vb

mutual
/-- For a member of `b` with the value given last, where `va` is what `a`
holds under the same key: a `null` of `b` is a `null` of `a`, and when both
hold an object the same is true inside. -/
def nullsKeptAt (va : Option Value) : Value → Bool
  | .null =>
    match va with
    | some .null => true
    | _ => false
  | .obj mb =>
    match va with
    | some (.obj ma) => Object.nullsKept ma mb
    | _ => true
  | _ => true
/-- Every `null` member of `b` (the last argument) is unchanged from `a`:
wherever `b` holds `null` under a key, at the top level or inside an object
that `a` also holds as an object at the same place, `a` holds `null` under
that key too. -/
def Object.nullsKept (a : Object) : List (String × Value) → Bool
  | [] => true
  | (k, vb) :: rest => nullsKeptAt (Object.lookup k a) vb && Object.nullsKept a rest
end

/-- The number is a float64: decoding it changes nothing. -/
def float64Exact (n : Int) : Bool :=
  match float64Nat n.natAbs with
  | none => false
  | some m => m == n.natAbs

mutual
/-- Every number in the value is a float64. -/
def Value.isFloat64 : Value → Bool
  | .num n => float64Exact n
  | .arr xs => Value.isFloat64Elems xs
  | .obj m => Object.isFloat64 m
  | _ => true
/-- Every number in the elements of an array is a float64. -/
def Value.isFloat64Elems : List Value → Bool
  | [] => true
  | x :: xs => Value.isFloat64 x && Value.isFloat64Elems xs
/-- Every number in the object is a float64. -/
def Object.isFloat64 : List (String × Value) → Bool
  | [] => true
  | (_, x) :: m => Value.isFloat64 x && Object.isFloat64 m
end

/-- The patch that sets every key of the object to `null`. -/
def Object.nulled (m : Object) : Object := m.map (fun e => (e.1, Value.null))

/-- A possibly-nil map is canonical when it is nil or a canonical object. -/
def canonOpt : Option Object → Bool
  | none => true
  | some m => Object.canon m

/-- A text is canonical when the value it encodes, if any, is canonical. -/
def JsonText.canon : JsonText → Bool
  | .encoded v => Value.canon v
  | _ => true

/-- The documents given to a Change are maps: `before`, `patch` and the
document the instruction encodes have unique keys, written in key order. -/
def Change.canonInputs (c : Change) : Bool :=
  canonOpt c.before && canonOpt c.patch && c.instruction.canon

/-- A document in the shape of the one `mig_test.go` uses as `before`. -/
def sampleBefore : Object :=
  [("a", .str "foo"), ("b", .str "bar"), ("c", .arr [.num 1, .num 2, .num 3, .num 4]),
   ("d", .bool false), ("e", .obj [("f", .str "foo"), ("g", .num 78)])]

/-- A patch in the shape of the one `mig_test.go` uses. -/
def samplePatch : Object :=
  [("a", .str "far"), ("c", .arr [.num 1, .num 2, .num 6]), ("d", .bool true),
   ("e", .obj [("f", .bool false)]), ("h", .num 1000)]

/-- The result of applying `samplePatch` to `sampleBefore`. -/
def sampleAfter : Object :=
  [("a", .str "far"), ("b", .str "bar"), ("c", .arr [.num 1, .num 2, .num 6]),
   ("d", .bool true), ("e", .obj [("f", .bool false), ("g", .num 78)]), ("h", .num 1000)]

/-- The rollback `mig_test.go` expects for the update of `sampleBefore` by `samplePatch`. -/
def sampleRollback : Object :=
  [("a", .str "foo"), ("c", .arr [.num 1, .num 2, .num 3, .num 4]), ("d", .bool false),
   ("e", .obj [("f", .str "foo")]), ("h", .null)]

/-- The first step of `SolveChange`: after-inference on the Change with `errState` cleared. -/
def afterStep (E : Engines) (c : Change) : Change × Option Error :=
  inferAfter E { c with errState := none }

/-- The second step of `SolveChange`: command-inference on the state the first step left. -/
def commandStep (E : Engines) (c : Change) : Change × Option Error :=
  inferCommand (afterStep E c).1

/-- The third step of `SolveChange`: the pretty diff on the state the second step left. -/
def prettyStep (E : Engines) (c : Change) : Change × Option Error :=
  inferPrettyDiff E (commandStep E c).1

/-- The fourth step of `SolveChange`: the rollback on the state the third step left. -/
def rollbackStep (E : Engines) (c : Change) : Change × Option Error :=
  inferRollback E (prettyStep E c).1

/-- The Change after `n` calls of `SolveChange` on the same object. -/
def solveTimes (E : Engines) (c : Change) : Nat → Change
  | 0 => c
  | n + 1 => (SolveChange E (solveTimes E c n)).1

/-- The command is one of the five declared constants. -/
def isCommand (k : Command) : Prop :=
  k = MigratorUnknown ∨ k = MigratorUpdate ∨ k = MigratorSet ∨ k = MigratorAdd ∨
    k = MigratorDelete

/-- A call made on a document store. -/
inductive StoreCall where
  | update (docPath : String) (data : Option Object)
  | set (docPath : String) (data : Option Object)
  | delete (docPath : String)

/-- A store that records the calls made on it, latest first, and reports no error. -/
def recorder : Firestore (List StoreCall) :=
  { UpdateDoc := fun docPath data s => (StoreCall.update docPath data :: s, none),
    SetDoc := fun docPath data s => (StoreCall.set docPath data :: s, none),
    DeleteDoc := fun docPath s => (StoreCall.delete docPath :: s, none) }

/-! ## Equality of values is decidable -/

mutual
theorem Value.beq_iff : ∀ (a b : Value), Value.beq a b = true ↔ a = b
  | .null, b => by cases b <;> simp [Value.beq]
  | .bool x, b => by cases b <;> simp [Value.beq]
  | .num x, b => by cases b <;> simp [Value.beq]
  | .str x, b => by cases b <;> simp [Value.beq]
  | .arr xs, b => by
    cases b <;> simp [Value.beq]
    exact Value.beqElems_iff xs _
  | .obj m, b => by
    cases b <;> simp [Value.beq]
    exact Value.beqMembers_iff m _
theorem Value.beqElems_iff : ∀ (xs ys : List Value), Value.beqElems xs ys = true ↔ xs = ys
  | [], ys => by cases ys <;> simp [Value.beqElems]
  | x :: xs, ys => by
    cases ys with
    | nil => simp [Value.beqElems]
    | cons y ys => simp [Value.beqElems, Value.beq_iff x y, Value.beqElems_iff xs ys]
theorem Value.beqMembers_iff :
    ∀ (m n : List (String × Value)), Value.beqMembers m n = true ↔ m = n
  | [], n => by cases n <;> simp [Value.beqMembers]
  | (k, x) :: m, n => by
    cases n with
    | nil => simp [Value.beqMembers]
    | cons e n =>
      obtain ⟨l, y⟩ := e
      simp [Value.beqMembers, Value.beq_iff x y, Value.beqMembers_iff m n, and_assoc]
end

instance : DecidableEq Value := fun a b =>
  decidable_of_iff (Value.beq a b = true) (Value.beq_iff a b)

deriving instance DecidableEq for JsonText

deriving instance DecidableEq for Change

deriving instance DecidableEq for StoreCall


/-! ## Key order -/

theorem keyLt_iff (k l : String) : keyLt k l ↔ k < l :=
  String.lt_iff_toList_lt.symm

theorem keyLt_irrefl (k : String) : ¬ keyLt k k := by
  rw [keyLt_iff]; exact lt_irrefl k

theorem keyLt_trans {k l m : String} (h₁ : keyLt k l) (h₂ : keyLt l m) : keyLt k m := by
  rw [keyLt_iff] at *; exact lt_trans h₁ h₂

theorem keyLt_ne {k l : String} (h : keyLt k l) : l ≠ k := by
  rintro rfl; exact keyLt_irrefl _ h

theorem keyLt_of_not {k l : String} (h₁ : ¬ keyLt k l) (h₂ : l ≠ k) : keyLt l k := by
  rw [keyLt_iff] at *
  rcases lt_trichotomy k l with h | h | h
  · exact absurd h h₁
  · exact absurd h.symm h₂
  · exact h

/-! ## Objects as maps: lookup, insert, erase -/

namespace Object

theorem sortedKeys_cons (k : String) (v : Value) (m : Object) :
    sortedKeys ((k, v) :: m) = true ↔ Above k m ∧ sortedKeys m = true := by
  induction m generalizing k v with
  | nil => simp [sortedKeys, Above]
  | cons e rest ih =>
    obtain ⟨l, w⟩ := e
    simp only [sortedKeys, Bool.and_eq_true, decide_eq_true_eq]
    constructor
    · rintro ⟨hkl, hs⟩
      refine ⟨?_, hs⟩
      intro e he
      rcases List.mem_cons.1 he with rfl | he
      · exact hkl
      · exact keyLt_trans hkl (((ih l w).1 hs).1 e he)
    · rintro ⟨ha, hs⟩
      exact ⟨ha (l, w) (List.mem_cons_self _ _), hs⟩

theorem lookup_of_above {k : String} {m : Object} (h : Above k m) : lookup k m = none := by
  induction m with
  | nil => rfl
  | cons e rest ih =>
    obtain ⟨l, w⟩ := e
    have hl : l ≠ k := keyLt_ne (h (l, w) (List.mem_cons_self _ _))
    simp only [lookup, hl, if_false]
    exact ih (fun e he => h e (List.mem_cons_of_mem _ he))

theorem lookup_insert (k : String) (v : Value) (m : Object) (j : String) :
    lookup j (insert k v m) = if k = j then some v else lookup j m := by
  induction m with
  | nil => simp [insert, lookup]
  | cons e rest ih =>
    obtain ⟨l, w⟩ := e
    simp only [insert]
    split_ifs with h1 h2 h3 h4 <;> simp_all [lookup]

theorem lookup_erase (k : String) (m : Object) (j : String) :
    lookup j (erase k m) = if k = j then none else lookup j m := by
  induction m with
  | nil => simp [erase, lookup]
  | cons e rest ih =>
    obtain ⟨l, w⟩ := e
    simp only [erase]
    split_ifs with h1 h2 h3 <;> simp_all [lookup]

theorem mem_insert {k : String} {v : Value} {m : Object} {e : String × Value}
    (h : e ∈ insert k v m) : e = (k, v) ∨ e ∈ m := by
  induction m with
  | nil => simpa [insert] using h
  | cons x rest ih =>
    obtain ⟨l, w⟩ := x
    simp only [insert] at h
    split_ifs at h with h1 h2
    · rcases List.mem_cons.1 h with h | h
      · exact Or.inl h
      · exact Or.inr h
    · rcases List.mem_cons.1 h with h | h
      · exact Or.inl h
      · exact Or.inr (List.mem_cons_of_mem _ h)
    · rcases List.mem_cons.1 h with h | h
      · exact Or.inr (h ▸ List.mem_cons_self _ _)
      · rcases ih h with h | h
        · exact Or.inl h
        · exact Or.inr (List.mem_cons_of_mem _ h)

theorem mem_erase {k : String} {m : Object} {e : String × Value}
    (h : e ∈ erase k m) : e ∈ m := by
  induction m with
  | nil => simp [erase] at h
  | cons x rest ih =>
    obtain ⟨l, w⟩ := x
    simp only [erase] at h
    split_ifs at h with h1
    · exact List.mem_cons_of_mem _ (ih h)
    · rcases List.mem_cons.1 h with h | h
      · exact h ▸ List.mem_cons_self _ _
      · exact List.mem_cons_of_mem _ (ih h)

theorem sortedKeys_insert (k : String) (v : Value) {m : Object}
    (h : sortedKeys m = true) : sortedKeys (insert k v m) = true := by
  induction m with
  | nil => simp [insert, sortedKeys]
  | cons x rest ih =>
    obtain ⟨l, w⟩ := x
    obtain ⟨ha, hs⟩ := (sortedKeys_cons l w rest).1 h
    simp only [insert]
    split_ifs with h1 h2
    · rw [sortedKeys_cons]
      refine ⟨?_, h⟩
      intro e he
      rcases List.mem_cons.1 he with rfl | he
      · exact h1
      · exact keyLt_trans h1 (ha e he)
    · rw [sortedKeys_cons]
      exact ⟨h2 ▸ ha, hs⟩
    · rw [sortedKeys_cons]
      refine ⟨?_, ih hs⟩
      intro e he
      rcases mem_insert he with rfl | he
      · exact keyLt_of_not h1 h2
      · exact ha e he

theorem sortedKeys_erase (k : String) {m : Object}
    (h : sortedKeys m = true) : sortedKeys (erase k m) = true := by
  induction m with
  | nil => simp [erase, sortedKeys]
  | cons x rest ih =>
    obtain ⟨l, w⟩ := x
    obtain ⟨ha, hs⟩ := (sortedKeys_cons l w rest).1 h
    simp only [erase]
    split_ifs with h1
    · exact ih hs
    · rw [sortedKeys_cons]
      exact ⟨fun e he => ha e (mem_erase he), ih hs⟩

/-- Two objects with strictly increasing keys that agree on every key are equal. -/
theorem ext_of_lookup {m n : Object} (hm : sortedKeys m = true) (hn : sortedKeys n = true)
    (h : ∀ k, lookup k m = lookup k n) : m = n := by
  induction m generalizing n with
  | nil =>
    cases n with
    | nil => rfl
    | cons y n =>
      obtain ⟨l, w⟩ := y
      have := h l
      simp [lookup] at this
  | cons x m ih =>
    obtain ⟨k, v⟩ := x
    cases n with
    | nil =>
      have := h k
      simp [lookup] at this
    | cons y n =>
      obtain ⟨l, w⟩ := y
      obtain ⟨ham, hsm⟩ := (sortedKeys_cons k v m).1 hm
      obtain ⟨han, hsn⟩ := (sortedKeys_cons l w n).1 hn
      have hkl : k = l := by
        by_contra hne
        by_cases hlt : keyLt k l
        · have h1 := h k
          have : lookup k n = none :=
            lookup_of_above (fun e he => keyLt_trans hlt (han e he))
          simp [lookup, Ne.symm hne, this] at h1
        · have hlt2 : keyLt l k := keyLt_of_not hlt (Ne.symm hne)
          have h1 := h l
          have : lookup l m = none :=
            lookup_of_above (fun e he => keyLt_trans hlt2 (ham e he))
          simp [lookup, hne, this] at h1
      subst hkl
      have hv : v = w := by
        have h1 := h k
        simpa [lookup] using h1
      subst hv
      have hrest : ∀ j, lookup j m = lookup j n := by
        intro j
        by_cases hj : k = j
        · subst hj
          rw [lookup_of_above ham, lookup_of_above han]
        · have h1 := h j
          simpa [lookup, hj] using h1
      rw [ih hsm hsn hrest]

end Object

/-! ## The merge-patch engine, key by key -/

theorem lookup_mergeKey (a : Object) (k : String) (pv : Value) (j : String) :
    Object.lookup j (mergeKey a k pv) =
      if k = j then mergeVal (Object.lookup k a) pv else Object.lookup j a := by
  cases pv with
  | obj pm =>
    simp only [mergeKey, mergeVal]
    split <;> simp [Object.lookup_insert]
  | _ => simp [mergeKey, mergeVal, Object.lookup_insert, Object.lookup_erase]

theorem sortedKeys_mergeKey {a : Object} (k : String) (pv : Value)
    (h : Object.sortedKeys a = true) : Object.sortedKeys (mergeKey a k pv) = true := by
  cases pv with
  | obj pm =>
    simp only [mergeKey]
    split <;> exact Object.sortedKeys_insert _ _ h
  | null => simpa [mergeKey] using Object.sortedKeys_erase k h
  | _ => simpa [mergeKey] using Object.sortedKeys_insert k _ h

theorem sortedKeys_merge {a : Object} (p : Object)
    (h : Object.sortedKeys a = true) : Object.sortedKeys (merge a p) = true := by
  induction p generalizing a with
  | nil => simpa [merge] using h
  | cons e rest ih =>
    obtain ⟨k, pv⟩ := e
    simp only [merge]
    exact ih (sortedKeys_mergeKey k pv h)

/-- The merge-patch engine read key by key: a key the patch does not mention
keeps the base value, a mentioned key holds what `mergeVal` says. -/
theorem lookup_merge (a : Object) {p : Object} (hp : Object.sortedKeys p = true) (j : String) :
    Object.lookup j (merge a p) =
      match Object.lookup j p with
      | none => Object.lookup j a
      | some pv => mergeVal (Object.lookup j a) pv := by
  induction p generalizing a with
  | nil => simp [merge, Object.lookup]
  | cons e rest ih =>
    obtain ⟨k, pv⟩ := e
    obtain ⟨ha, hs⟩ := (Object.sortedKeys_cons k pv rest).1 hp
    simp only [merge]
    rw [ih _ hs]
    by_cases hkj : k = j
    · subst hkj
      simp [Object.lookup, Object.lookup_of_above ha, lookup_mergeKey]
    · simp [Object.lookup, hkj, lookup_mergeKey]

/-! ## The merge-diff engine, key by key -/

theorem diffKey_eq (va : Option Value) (k : String) (p : Object) (vb : Value) :
    diffKey va k p vb =
      match diffVal va vb with
      | none => p
      | some x => Object.insert k x p := by
  cases vb with
  | obj mb =>
    simp only [diffKey, diffVal]
    split
    · rfl
    · simp only [diff]; split_ifs <;> rfl
    · split_ifs <;> rfl
  | _ =>
    simp only [diffKey, diffVal]
    split
    · rfl
    · split_ifs <;> rfl

theorem sortedKeys_diffKey (va : Option Value) (k : String) {p : Object} (vb : Value)
    (h : Object.sortedKeys p = true) : Object.sortedKeys (diffKey va k p vb) = true := by
  rw [diffKey_eq]
  split
  · exact h
  · exact Object.sortedKeys_insert _ _ h

theorem sortedKeys_diffPresent (a b : Object) :
    Object.sortedKeys (diffPresent a b) = true := by
  induction b with
  | nil => simp [diffPresent, Object.sortedKeys]
  | cons e rest ih =>
    obtain ⟨k, vb⟩ := e
    simp only [diffPresent]
    exact sortedKeys_diffKey _ _ _ ih

theorem sortedKeys_diffRemoved (b : Object) {p : Object} (a : Object)
    (h : Object.sortedKeys p = true) : Object.sortedKeys (diffRemoved b p a) = true := by
  induction a with
  | nil => simpa [diffRemoved] using h
  | cons e rest ih =>
    obtain ⟨k, va⟩ := e
    simp only [diffRemoved]
    split
    · exact Object.sortedKeys_insert _ _ ih
    · exact ih

/-- The patch the diff engine returns has strictly increasing keys. -/
theorem sortedKeys_diff (a b : Object) : Object.sortedKeys (diff a b) = true :=
  sortedKeys_diffRemoved b a (sortedKeys_diffPresent a b)

theorem lookup_diffRemoved (b p a : Object) (j : String) :
    Object.lookup j (diffRemoved b p a) =
      if (Object.lookup j a).isSome ∧ (Object.lookup j b).isNone then some .null
      else Object.lookup j p := by
  induction a with
  | nil => simp [diffRemoved, Object.lookup]
  | cons e rest ih =>
    obtain ⟨k, va⟩ := e
    simp only [diffRemoved]
    by_cases hkj : k = j
    · subst hkj
      cases hb : Object.lookup k b with
      | none => simp [Object.lookup, Object.lookup_insert]
      | some w => simp [Object.lookup, ih, hb]
    · cases hb : Object.lookup k b with
      | none => simp [Object.lookup, Object.lookup_insert, hkj, ih]
      | some w => simp [Object.lookup, hkj, ih]

theorem lookup_diffPresent (a : Object) {b : Object} (hb : Object.sortedKeys b = true)
    (j : String) :
    Object.lookup j (diffPresent a b) =
      match Object.lookup j b with
      | none => none
      | some vb => diffVal (Object.lookup j a) vb := by
  induction b with
  | nil => simp [diffPresent, Object.lookup]
  | cons e rest ih =>
    obtain ⟨k, vb⟩ := e
    obtain ⟨ha, hs⟩ := (Object.sortedKeys_cons k vb rest).1 hb
    simp only [diffPresent]
    rw [diffKey_eq]
    have ih := ih hs
    by_cases hkj : k = j
    · subst hkj
      rw [Object.lookup_of_above ha] at ih
      cases hd : diffVal (Object.lookup k a) vb with
      | none => simp [Object.lookup, ih, hd]
      | some x => simp [Object.lookup, Object.lookup_insert, hd]
    · cases hd : diffVal (Object.lookup k a) vb with
      | none => simp [Object.lookup, hkj, ih]
      | some x => simp [Object.lookup, Object.lookup_insert, hkj, ih]

/-- The merge-diff engine read key by key (section 4.2): a key of `a` absent
from `b` carries `null`, a key of `b` carries what `diffVal` says, and no
other key is in the patch. -/
theorem lookup_diff (a : Object) {b : Object} (hb : Object.sortedKeys b = true) (j : String) :
    Object.lookup j (diff a b) =
      match Object.lookup j b with
      | none => if (Object.lookup j a).isSome then some .null else none
      | some vb => diffVal (Object.lookup j a) vb := by
  unfold diff
  rw [lookup_diffRemoved, lookup_diffPresent a hb]
  cases Object.lookup j b with
  | none => simp
  | some vb => simp

/-! ## Canonical form, absence of null, size -/

theorem Object.canon_iff (m : Object) :
    Object.canon m = true ↔ Object.sortedKeys m = true ∧ Value.canonMembers m = true := by
  simp [Object.canon, Value.canon]

theorem canonMembers_lookup {m : Object} (h : Value.canonMembers m = true) {k : String}
    {v : Value} (hk : Object.lookup k m = some v) : Value.canon v = true := by
  induction m with
  | nil => simp [Object.lookup] at hk
  | cons e rest ih =>
    obtain ⟨l, w⟩ := e
    simp only [Value.canonMembers, Bool.and_eq_true] at h
    simp only [Object.lookup] at hk
    split_ifs at hk with hl
    · cases hk; exact h.1
    · exact ih h.2 hk

theorem Object.canon_lookup {m : Object} (h : Object.canon m = true) {k : String} {n : Object}
    (hk : Object.lookup k m = some (.obj n)) : Object.canon n = true :=
  canonMembers_lookup ((Object.canon_iff m).1 h).2 hk

theorem Object.sizeOf_lookup {m : Object} {k : String} {v : Value}
    (hk : Object.lookup k m = some v) : sizeOf v < sizeOf m := by
  induction m with
  | nil => simp [Object.lookup] at hk
  | cons e rest ih =>
    obtain ⟨l, w⟩ := e
    simp only [Object.lookup] at hk
    split_ifs at hk with hl
    · cases hk
      simp
      omega
    · have := ih hk
      simp
      omega

/-! ## Round trip of diff and merge -/

theorem Object.lookup_cons_of_above {k : String} {v : Value} {rest : Object}
    (ha : Object.Above k rest) {j : String} {w : Value} (h : Object.lookup j rest = some w) :
    Object.lookup j ((k, v) :: rest) = some w := by
  have hkj : k ≠ j := by
    rintro rfl
    rw [Object.lookup_of_above ha] at h
    cases h
  simp [Object.lookup, hkj, h]

/-- With strictly increasing keys, `nullsKept` is `nullsKeptAt` at every key of `b`. -/
theorem Object.nullsKept_iff (a : Object) {b : Object} (hb : Object.sortedKeys b = true) :
    Object.nullsKept a b = true ↔
      ∀ j vb, Object.lookup j b = some vb → nullsKeptAt (Object.lookup j a) vb = true := by
  induction b with
  | nil => simp [Object.nullsKept, Object.lookup]
  | cons e rest ih =>
    obtain ⟨k, v⟩ := e
    obtain ⟨ha, hs⟩ := (Object.sortedKeys_cons k v rest).1 hb
    simp only [Object.nullsKept, Bool.and_eq_true, ih hs]
    constructor
    · rintro ⟨h1, h2⟩ j vb hj
      simp only [Object.lookup] at hj
      split_ifs at hj with hkj
      · subst hkj
        cases hj
        exact h1
      · exact h2 j vb hj
    · intro h
      refine ⟨h k v (by simp [Object.lookup]), ?_⟩
      intro j vb hj
      exact h j vb (Object.lookup_cons_of_above ha hj)

/-- One key of the round trip: merging the patch member the diff wrote for a
key gives back the value `b` holds there exactly when the `null`s of that
value are unchanged from `a`, provided nested objects behave so. -/
theorem mergeVal_diffVal (va : Option Value) (vb : Value)
    (hrec : ∀ ma mb, va = some (.obj ma) → vb = .obj mb →
      (merge ma (diff ma mb) = mb ↔ Object.nullsKept ma mb = true)) :
    (match diffVal va vb with
      | none => va
      | some pv => mergeVal va pv) = some vb ↔ nullsKeptAt va vb = true := by
  cases vb with
  | null =>
    cases va with
    | none => simp [diffVal, mergeVal, nullsKeptAt]
    | some va => cases va <;> simp [diffVal, mergeVal, nullsKeptAt, Value.beq]
  | obj mb =>
    cases va with
    | none => simp [diffVal, mergeVal, nullsKeptAt]
    | some va =>
      cases va with
      | obj ma =>
        have h := hrec ma mb rfl rfl
        simp only [diffVal, nullsKeptAt]
        split_ifs with he
        · have hd : diff ma mb = [] := by simpa using he
          rw [hd] at h
          simp only [merge] at h
          simpa using h
        · simpa [mergeVal] using h
      | _ => simp [diffVal, mergeVal, nullsKeptAt, Value.beq]
  | _ =>
    cases va with
    | none => simp [diffVal, mergeVal, nullsKeptAt]
    | some va =>
      simp only [diffVal, nullsKeptAt]
      split_ifs with he
      · simp [(Value.beq_iff _ _).1 he]
      · simp [mergeVal]

theorem merge_diff_iff_of_size (n : Nat) :
    ∀ a b : Object, sizeOf b < n → Object.canon a = true → Object.canon b = true →
      (merge a (diff a b) = b ↔ Object.nullsKept a b = true) := by
  induction n with
  | zero => intro a b h; exact absurd h (Nat.not_lt_zero _)
  | succ n ih =>
    intro a b hsz ha hb
    have hsa := ((Object.canon_iff a).1 ha).1
    have hsb := ((Object.canon_iff b).1 hb).1
    have hkey : ∀ j, Object.lookup j (merge a (diff a b)) = Object.lookup j b ↔
        ∀ vb, Object.lookup j b = some vb → nullsKeptAt (Object.lookup j a) vb = true := by
      intro j
      rw [lookup_merge a (sortedKeys_diff a b) j, lookup_diff a hsb j]
      cases hjb : Object.lookup j b with
      | none =>
        cases hja : Object.lookup j a with
        | none => simp
        | some va => simp [mergeVal]
      | some vb =>
        have hrec : ∀ ma mb, Object.lookup j a = some (.obj ma) → vb = .obj mb →
            (merge ma (diff ma mb) = mb ↔ Object.nullsKept ma mb = true) := by
          intro ma mb hma hmb
          subst hmb
          have hlt := Object.sizeOf_lookup hjb
          have hlt2 : sizeOf mb < n := by
            simp at hlt
            omega
          exact ih ma mb hlt2 (Object.canon_lookup ha hma) (Object.canon_lookup hb hjb)
        simp only [Option.some.injEq, forall_eq']
        exact mergeVal_diffVal _ _ hrec
    rw [Object.nullsKept_iff a hsb]
    constructor
    · intro h j vb hj
      exact (hkey j).1 (by rw [h]) vb hj
    · intro h
      apply Object.ext_of_lookup (sortedKeys_merge _ hsa) hsb
      intro j
      exact (hkey j).2 (h j)

/-- The round trip of diff and merge holds exactly when the `null`s of the
target are unchanged from the source. -/
theorem merge_diff_iff {a b : Object} (ha : Object.canon a = true)
    (hb : Object.canon b = true) :
    merge a (diff a b) = b ↔ Object.nullsKept a b = true :=
  merge_diff_iff_of_size (sizeOf b + 1) a b (Nat.lt_succ_self _) ha hb

theorem nullsKept_of_noNull_of_size (n : Nat) :
    ∀ a b : Object, sizeOf b < n → Object.noNull b = true → Object.nullsKept a b = true := by
  induction n with
  | zero => intro a b h; exact absurd h (Nat.not_lt_zero _)
  | succ n ih =>
    intro a b
    induction b with
    | nil => intro _ _; rfl
    | cons e rest ihb =>
      obtain ⟨k, v⟩ := e
      intro hsz hn
      simp only [Object.noNull, Bool.and_eq_true] at hn
      have hrest : sizeOf rest < n + 1 := by
        simp at hsz
        omega
      simp only [Object.nullsKept, Bool.and_eq_true]
      refine ⟨?_, ihb hrest hn.2⟩
      cases v with
      | null => simp [Value.noNull] at hn
      | obj mb =>
        have hszm : sizeOf mb < n := by
          simp at hsz
          omega
        have hnm : Object.noNull mb = true := by simpa [Value.noNull] using hn.1
        simp only [nullsKeptAt]
        split
        · exact ih _ mb hszm hnm
        · rfl
      | _ => simp [nullsKeptAt]

/-- A target without `null` members has all its `null`s unchanged, vacuously. -/
theorem nullsKept_of_noNull (a : Object) {b : Object} (hn : Object.noNull b = true) :
    Object.nullsKept a b = true :=
  nullsKept_of_noNull_of_size (sizeOf b + 1) a b (Nat.lt_succ_self _) hn

/-! ## The merge-patch engine keeps documents canonical -/

theorem canonMembers_insert {m : Object} (k : String) {v : Value}
    (hm : Value.canonMembers m = true) (hv : Value.canon v = true) :
    Value.canonMembers (Object.insert k v m) = true := by
  induction m with
  | nil => simp [Object.insert, Value.canonMembers, hv]
  | cons e rest ih =>
    obtain ⟨l, w⟩ := e
    simp only [Value.canonMembers, Bool.and_eq_true] at hm
    simp only [Object.insert]
    split_ifs <;> simp [Value.canonMembers, hv, hm.1, hm.2, ih hm.2]

theorem canonMembers_erase {m : Object} (k : String)
    (hm : Value.canonMembers m = true) : Value.canonMembers (Object.erase k m) = true := by
  induction m with
  | nil => simp [Object.erase, Value.canonMembers]
  | cons e rest ih =>
    obtain ⟨l, w⟩ := e
    simp only [Value.canonMembers, Bool.and_eq_true] at hm
    simp only [Object.erase]
    split_ifs <;> simp [Value.canonMembers, hm.1, ih hm.2]

theorem Object.canon_insert {m : Object} (k : String) {v : Value}
    (hm : Object.canon m = true) (hv : Value.canon v = true) :
    Object.canon (Object.insert k v m) = true := by
  rw [Object.canon_iff] at *
  exact ⟨Object.sortedKeys_insert k v hm.1, canonMembers_insert k hm.2 hv⟩

theorem Object.canon_erase {m : Object} (k : String) (hm : Object.canon m = true) :
    Object.canon (Object.erase k m) = true := by
  rw [Object.canon_iff] at *
  exact ⟨Object.sortedKeys_erase k hm.1, canonMembers_erase k hm.2⟩

theorem canon_merge_of_size (n : Nat) :
    ∀ a p : Object, sizeOf p < n → Object.canon a = true → Value.canonMembers p = true →
      Object.canon (merge a p) = true := by
  induction n with
  | zero => intro a p h; exact absurd h (Nat.not_lt_zero _)
  | succ n ih =>
    intro a p
    induction p generalizing a with
    | nil => intro _ ha _; simpa [merge] using ha
    | cons e rest ihp =>
      obtain ⟨k, pv⟩ := e
      intro hsz ha hp
      simp only [Value.canonMembers, Bool.and_eq_true] at hp
      have hrest : sizeOf rest < n + 1 := by
        simp at hsz
        omega
      have hpv : sizeOf pv < n + 1 := by
        simp at hsz
        omega
      simp only [merge]
      refine ihp _ hrest ?_ hp.2
      cases pv with
      | null => simpa [mergeKey] using Object.canon_erase k ha
      | obj pm =>
        have hpm : Object.canon pm = true := hp.1
        have hszm : sizeOf pm < n := by
          simp at hpv
          omega
        simp only [mergeKey]
        split
        · rename_i bm hbm
          apply Object.canon_insert k ha
          exact ih bm pm hszm (Object.canon_lookup ha hbm) ((Object.canon_iff pm).1 hpm).2
        · exact Object.canon_insert k ha hp.1
      | _ => simpa [mergeKey] using Object.canon_insert k ha hp.1

/-- Merging a canonical patch into a canonical document gives a canonical document. -/
theorem canon_merge {a p : Object} (ha : Object.canon a = true) (hp : Object.canon p = true) :
    Object.canon (merge a p) = true :=
  canon_merge_of_size (sizeOf p + 1) a p (Nat.lt_succ_self _) ha ((Object.canon_iff p).1 hp).2

/-! ## The resolution steps: what each one writes -/

theorem inferAfter_writes (E : Engines) (c : Change) :
    ∃ a, (inferAfter E c).1 = { c with after := a } := by
  unfold inferAfter
  split_ifs
  · exact ⟨_, rfl⟩
  · exact ⟨_, rfl⟩
  · exact ⟨_, rfl⟩
  · exact ⟨c.after, rfl⟩
  · dsimp only
    split
    · exact ⟨c.after, rfl⟩
    · exact ⟨_, rfl⟩
  · dsimp only
    split
    · exact ⟨c.after, rfl⟩
    · exact ⟨_, rfl⟩

theorem inferCommand_writes (c : Change) :
    ∃ k, (inferCommand c).1 = { c with command := k } := by
  unfold inferCommand
  split_ifs
  · exact ⟨c.command, rfl⟩
  · split
    · exact ⟨c.command, rfl⟩
    · split_ifs
      · exact ⟨_, rfl⟩
      · exact ⟨_, rfl⟩

theorem inferPrettyDiff_writes (E : Engines) (c : Change) :
    ∃ s, (inferPrettyDiff E c).1 = { c with prettyDiff := s } := by
  unfold inferPrettyDiff
  split
  · split
    · exact ⟨c.prettyDiff, rfl⟩
    · exact ⟨_, rfl⟩
  · exact ⟨c.prettyDiff, rfl⟩

theorem inferRollback_writes (E : Engines) (c : Change) :
    ∃ r, (inferRollback E c).1 = { c with rollback := r } := by
  unfold inferRollback
  split_ifs
  · exact ⟨c.rollback, rfl⟩
  · dsimp only
    split
    · exact ⟨c.rollback, rfl⟩
    · exact ⟨_, rfl⟩

/-- A step that reports an error has written nothing. -/
theorem inferAfter_error {E : Engines} {c : Change} {e : Error}
    (h : (inferAfter E c).2 = some e) : (inferAfter E c).1 = c := by
  unfold inferAfter at h ⊢
  split_ifs at h ⊢ <;> try simp at h
  · rfl
  · dsimp only at h ⊢
    split at h <;> simp_all
  · dsimp only at h ⊢
    split at h <;> simp_all

theorem inferCommand_error {c : Change} {e : Error}
    (h : (inferCommand c).2 = some e) : (inferCommand c).1 = c := by
  unfold inferCommand at h ⊢
  split_ifs at h ⊢
  cases hca : c.after with
  | none => rfl
  | some after =>
    rw [hca] at h
    dsimp only at h
    split_ifs at h

theorem inferPrettyDiff_error {E : Engines} {c : Change} {e : Error}
    (h : (inferPrettyDiff E c).2 = some e) : (inferPrettyDiff E c).1 = c := by
  unfold inferPrettyDiff at h ⊢
  split at h
  · split at h <;> simp_all
  · simp_all

theorem inferRollback_error {E : Engines} {c : Change} {e : Error}
    (h : (inferRollback E c).2 = some e) : (inferRollback E c).1 = c := by
  unfold inferRollback at h ⊢
  split_ifs at h ⊢ <;> try simp at h
  · rfl
  · dsimp only at h ⊢
    split at h <;> simp_all

/-- The run of `SolveChange`, step by step: the states after each step, and
the error of the first failing step, if any. -/
theorem SolveChange_run (E : Engines) (c : Change) :
    let r1 := inferAfter E { c with errState := none }
    let r2 := inferCommand r1.1
    let r3 := inferPrettyDiff E r2.1
    let r4 := inferRollback E r3.1
    SolveChange E c =
      match r1.2 with
      | some e => ({ r1.1 with errState := some e }, some e)
      | none =>
        match r2.2 with
        | some e => ({ r2.1 with errState := some e }, some e)
        | none =>
          match r3.2 with
          | some e => ({ r3.1 with errState := some e }, some e)
          | none =>
            match r4.2 with
            | some e => ({ r4.1 with errState := some e }, some e)
            | none => (r4.1, none) := by
  intro r1 r2 r3 r4
  unfold SolveChange
  simp only
  rcases h1 : inferAfter E { c with errState := none } with ⟨c1, _ | e1⟩
  · have e1 : r1 = (c1, none) := h1
    rcases h2 : inferCommand c1 with ⟨c2, _ | e2⟩
    · have e2 : r2 = (c2, none) := by simp only [r2, e1, h2]
      rcases h3 : inferPrettyDiff E c2 with ⟨c3, _ | e3⟩
      · have e3 : r3 = (c3, none) := by simp only [r3, e2, h3]
        rcases h4 : inferRollback E c3 with ⟨c4, _ | e4⟩
        · have e4 : r4 = (c4, none) := by simp only [r4, e3, h4]
          simp [e1, e2, e3, e4, h2, h3, h4]
        · have e4 : r4 = (c4, some e4) := by simp only [r4, e3, h4]
          simp [e1, e2, e3, e4, h2, h3, h4]
      · have e3 : r3 = (c3, some e3) := by simp only [r3, e2, h3]
        simp [e1, e2, e3, h2, h3]
    · have e2 : r2 = (c2, some e2) := by simp only [r2, e1, h2]
      simp [e1, e2, h2]
  · have e1 : r1 = (c1, some e1) := h1
    simp [e1]

/-- Resolution writes only the derived fields: `after`, `command`,
`prettyDiff`, `rollback` and `errState`. -/
theorem SolveChange_writes (E : Engines) (c : Change) :
    ∃ a k s r e, (SolveChange E c).1 =
      { c with after := a, command := k, prettyDiff := s, rollback := r, errState := e } := by
  unfold SolveChange
  simp only
  obtain ⟨a, ha⟩ := inferAfter_writes E { c with errState := none }
  rcases h1 : inferAfter E { c with errState := none } with ⟨c1, _ | e1⟩
  · rw [h1] at ha
    simp only at ha
    subst ha
    obtain ⟨k, hk⟩ := inferCommand_writes { c with errState := none, after := a }
    simp only
    rcases h2 : inferCommand { c with errState := none, after := a } with ⟨c2, _ | e2⟩
    · rw [h2] at hk
      simp only at hk
      subst hk
      obtain ⟨s, hs⟩ := inferPrettyDiff_writes E
        { c with errState := none, after := a, command := k }
      simp only
      rcases h3 : inferPrettyDiff E { c with errState := none, after := a, command := k }
        with ⟨c3, _ | e3⟩
      · rw [h3] at hs
        simp only at hs
        subst hs
        obtain ⟨r, hr⟩ := inferRollback_writes E
          { c with errState := none, after := a, command := k, prettyDiff := s }
        simp only
        rcases h4 : inferRollback E
          { c with errState := none, after := a, command := k, prettyDiff := s }
          with ⟨c4, _ | e4⟩
        · rw [h4] at hr
          simp only at hr
          subst hr
          exact ⟨_, _, _, _, _, rfl⟩
        · rw [h4] at hr
          simp only at hr
          subst hr
          exact ⟨_, _, _, _, _, rfl⟩
      · rw [h3] at hs
        simp only at hs
        subst hs
        exact ⟨_, _, _, _, _, rfl⟩
    · rw [h2] at hk
      simp only at hk
      subst hk
      exact ⟨_, _, _, _, _, rfl⟩
  · rw [h1] at ha
    simp only at ha
    subst ha
    exact ⟨_, _, _, _, _, rfl⟩

theorem SolveChange_before (E : Engines) (c : Change) :
    (SolveChange E c).1.before = c.before := by
  obtain ⟨a, k, s, r, e, h⟩ := SolveChange_writes E c
  rw [h]

/-- With an explicit command the command-inference step does nothing. -/
theorem inferCommand_explicit {c : Change} (h : c.command ≠ MigratorUnknown) :
    inferCommand c = (c, none) := by
  unfold inferCommand
  rw [if_pos h]

/-- With the Unknown command the step needs `after` and infers Set from a
non-empty `after`, Delete from an empty one. -/
theorem inferCommand_unknown {c : Change} (h : c.command = MigratorUnknown) :
    inferCommand c =
      match c.after with
      | none => (c, some .needAfterForCommand)
      | some after =>
        if after.length > 0 then ({ c with command := MigratorSet }, none)
        else ({ c with command := MigratorDelete }, none) := by
  unfold inferCommand
  rw [if_neg (by simpa using h)]

/-- A successful resolution: every step succeeded, in order. -/
theorem SolveChange_ok {E : Engines} {c : Change} (h : (SolveChange E c).2 = none) :
    ∃ c1 c2 c3 c4, inferAfter E { c with errState := none } = (c1, none) ∧
      inferCommand c1 = (c2, none) ∧ inferPrettyDiff E c2 = (c3, none) ∧
      inferRollback E c3 = (c4, none) ∧ SolveChange E c = (c4, none) := by
  unfold SolveChange at h ⊢
  simp only at h ⊢
  rcases h1 : inferAfter E { c with errState := none } with ⟨c1, _ | e1⟩
  · rw [h1] at h
    simp only at h ⊢
    rcases h2 : inferCommand c1 with ⟨c2, _ | e2⟩
    · rw [h2] at h
      simp only at h ⊢
      rcases h3 : inferPrettyDiff E c2 with ⟨c3, _ | e3⟩
      · rw [h3] at h
        simp only at h ⊢
        rcases h4 : inferRollback E c3 with ⟨c4, _ | e4⟩
        · exact ⟨c1, c2, c3, c4, rfl, h2, h3, h4, rfl⟩
        · rw [h4] at h; simp at h
      · rw [h3] at h; simp at h
    · rw [h2] at h; simp at h
  · rw [h1] at h; simp at h

/-! ## The engines on the empty document, and the frame of a merge -/

theorem Object.insert_of_above {k : String} (v : Value) {m : Object} (h : Object.Above k m) :
    Object.insert k v m = (k, v) :: m := by
  cases m with
  | nil => rfl
  | cons e rest =>
    obtain ⟨l, w⟩ := e
    have hkl : keyLt k l := h (l, w) (List.mem_cons_self _ _)
    simp [Object.insert, hkl]

theorem diffKey_none (k : String) (p : Object) (vb : Value) :
    diffKey none k p vb = Object.insert k vb p := by
  cases vb <;> simp [diffKey]

theorem diffPresent_nil {b : Object} (hb : Object.sortedKeys b = true) :
    diffPresent [] b = b := by
  induction b with
  | nil => rfl
  | cons e rest ih =>
    obtain ⟨k, v⟩ := e
    obtain ⟨ha, hs⟩ := (Object.sortedKeys_cons k v rest).1 hb
    simp only [diffPresent, Object.lookup, diffKey_none, ih hs]
    exact Object.insert_of_above v ha

/-- The diff from the empty document is the target document itself. -/
theorem diff_nil_left {b : Object} (hb : Object.sortedKeys b = true) : diff [] b = b := by
  simp [diff, diffRemoved, diffPresent_nil hb]

theorem Object.above_nulled {k : String} {m : Object} (h : Object.Above k m) :
    Object.Above k (Object.nulled m) := by
  intro e he
  simp only [Object.nulled, List.mem_map] at he
  obtain ⟨x, hx, rfl⟩ := he
  exact h x hx

/-- The diff to the empty document sets every key to `null`. -/
theorem diff_nil_right {a : Object} (ha : Object.sortedKeys a = true) :
    diff a [] = Object.nulled a := by
  simp only [diff, diffPresent]
  induction a with
  | nil => rfl
  | cons e rest ih =>
    obtain ⟨k, v⟩ := e
    obtain ⟨hab, hs⟩ := (Object.sortedKeys_cons k v rest).1 ha
    simp only [diffRemoved, Object.lookup, ih hs]
    exact Object.insert_of_above _ (Object.above_nulled hab)

/-- Keys the patch does not mention keep the value the base holds. -/
theorem lookup_merge_of_absent (b p : Object) (k : String) (h : Object.lookup k p = none) :
    Object.lookup k (merge b p) = Object.lookup k b := by
  induction p generalizing b with
  | nil => rfl
  | cons e rest ih =>
    obtain ⟨l, pv⟩ := e
    simp only [Object.lookup] at h
    split_ifs at h with hl
    simp only [merge]
    rw [ih _ h, lookup_mergeKey, if_neg hl]

/-! ## Decoding into a map: numbers as float64 -/

theorem unmarshalNumber_exact {n : Int} (h : float64Exact n = true) :
    unmarshalNumber n = .num n := by
  unfold float64Exact at h
  unfold unmarshalNumber
  cases hf : float64Nat n.natAbs with
  | none => rw [hf] at h; cases h
  | some m =>
    rw [hf] at h
    have hm : m = n.natAbs := by simpa using h
    subst hm
    simp only [Value.num.injEq]
    split_ifs with hn
    · omega
    · omega

mutual
theorem Value.unmarshalAny_exact : ∀ (v : Value), Value.isFloat64 v = true →
    Value.unmarshalAny v = v
  | .null, _ => rfl
  | .bool _, _ => rfl
  | .num n, h => by
    simp only [Value.isFloat64] at h
    simp only [Value.unmarshalAny]
    exact unmarshalNumber_exact h
  | .str _, _ => rfl
  | .arr xs, h => by
    simp only [Value.isFloat64] at h
    simp only [Value.unmarshalAny, Value.unmarshalElems_exact xs h]
  | .obj m, h => by
    simp only [Value.isFloat64] at h
    simp only [Value.unmarshalAny, Value.unmarshalMembers_exact m h]
theorem Value.unmarshalElems_exact : ∀ (xs : List Value), Value.isFloat64Elems xs = true →
    Value.unmarshalElems xs = xs
  | [], _ => rfl
  | x :: xs, h => by
    simp only [Value.isFloat64Elems, Bool.and_eq_true] at h
    simp only [Value.unmarshalElems, Value.unmarshalAny_exact x h.1,
      Value.unmarshalElems_exact xs h.2]
theorem Value.unmarshalMembers_exact : ∀ (m : List (String × Value)),
    Object.isFloat64 m = true → Value.unmarshalMembers m = m
  | [], _ => rfl
  | (k, x) :: m, h => by
    simp only [Object.isFloat64, Bool.and_eq_true] at h
    simp only [Value.unmarshalMembers, Value.unmarshalAny_exact x h.1,
      Value.unmarshalMembers_exact m h.2]
end

/-- Decoding keeps the keys: under each key is the decoded value. -/
theorem lookup_unmarshalMembers (m : Object) (k : String) :
    Object.lookup k (Value.unmarshalMembers m) = (Object.lookup k m).map Value.unmarshalAny := by
  induction m with
  | nil => rfl
  | cons e rest ih =>
    obtain ⟨l, x⟩ := e
    simp only [Value.unmarshalMembers, Object.lookup]
    split_ifs
    · rfl
    · exact ih

theorem above_unmarshalMembers {k : String} {m : Object} (h : Object.Above k m) :
    Object.Above k (Value.unmarshalMembers m) := by
  induction m with
  | nil => intro e he; cases he
  | cons x rest ih =>
    obtain ⟨l, w⟩ := x
    intro e he
    simp only [Value.unmarshalMembers] at he
    rcases List.mem_cons.1 he with rfl | he
    · exact h (l, w) (List.mem_cons_self _ _)
    · exact ih (fun e he => h e (List.mem_cons_of_mem _ he)) e he

theorem sortedKeys_unmarshalMembers {m : Object} (h : Object.sortedKeys m = true) :
    Object.sortedKeys (Value.unmarshalMembers m) = true := by
  induction m with
  | nil => rfl
  | cons x rest ih =>
    obtain ⟨l, w⟩ := x
    obtain ⟨ha, hs⟩ := (Object.sortedKeys_cons l w rest).1 h
    simp only [Value.unmarshalMembers]
    rw [Object.sortedKeys_cons]
    exact ⟨above_unmarshalMembers ha, ih hs⟩

theorem canon_unmarshalNumber (n : Int) : Value.canon (unmarshalNumber n) = true := by
  unfold unmarshalNumber
  cases float64Nat n.natAbs <;> rfl

mutual
theorem Value.canon_unmarshalAny : ∀ (v : Value), Value.canon v = true →
    Value.canon (Value.unmarshalAny v) = true
  | .null, _ => rfl
  | .bool _, _ => rfl
  | .num n, _ => canon_unmarshalNumber n
  | .str _, _ => rfl
  | .arr xs, h => by
    simp only [Value.canon] at h
    simp only [Value.unmarshalAny, Value.canon]
    exact Value.canonElems_unmarshal xs h
  | .obj m, h => by
    simp only [Value.canon, Bool.and_eq_true] at h
    simp only [Value.unmarshalAny, Value.canon, Bool.and_eq_true]
    exact ⟨sortedKeys_unmarshalMembers h.1, Value.canonMembers_unmarshal m h.2⟩
theorem Value.canonElems_unmarshal : ∀ (xs : List Value), Value.canonElems xs = true →
    Value.canonElems (Value.unmarshalElems xs) = true
  | [], _ => rfl
  | x :: xs, h => by
    simp only [Value.canonElems, Bool.and_eq_true] at h
    simp only [Value.unmarshalElems, Value.canonElems, Bool.and_eq_true]
    exact ⟨Value.canon_unmarshalAny x h.1, Value.canonElems_unmarshal xs h.2⟩
theorem Value.canonMembers_unmarshal : ∀ (m : List (String × Value)),
    Value.canonMembers m = true → Value.canonMembers (Value.unmarshalMembers m) = true
  | [], _ => rfl
  | (k, x) :: m, h => by
    simp only [Value.canonMembers, Bool.and_eq_true] at h
    simp only [Value.unmarshalMembers, Value.canonMembers, Bool.and_eq_true]
    exact ⟨Value.canon_unmarshalAny x h.1, Value.canonMembers_unmarshal m h.2⟩
end

/-- Decoding a canonical object gives a canonical object. -/
theorem canon_unmarshalMembers {m : Object} (h : Object.canon m = true) :
    Object.canon (Value.unmarshalMembers m) = true :=
  Value.canon_unmarshalAny (.obj m) h

/-! ## The merge-patch engine keeps numbers that are float64 -/

theorem isFloat64_lookup {m : Object} (h : Object.isFloat64 m = true) {k : String}
    {v : Value} (hk : Object.lookup k m = some v) : Value.isFloat64 v = true := by
  induction m with
  | nil => simp [Object.lookup] at hk
  | cons e rest ih =>
    obtain ⟨l, w⟩ := e
    simp only [Object.isFloat64, Bool.and_eq_true] at h
    simp only [Object.lookup] at hk
    split_ifs at hk with hl
    · cases hk; exact h.1
    · exact ih h.2 hk

theorem isFloat64_insert {m : Object} (k : String) {v : Value}
    (hm : Object.isFloat64 m = true) (hv : Value.isFloat64 v = true) :
    Object.isFloat64 (Object.insert k v m) = true := by
  induction m with
  | nil => simp [Object.insert, Object.isFloat64, hv]
  | cons e rest ih =>
    obtain ⟨l, w⟩ := e
    simp only [Object.isFloat64, Bool.and_eq_true] at hm
    simp only [Object.insert]
    split_ifs <;> simp [Object.isFloat64, hv, hm.1, hm.2, ih hm.2]

theorem isFloat64_erase {m : Object} (k : String)
    (hm : Object.isFloat64 m = true) : Object.isFloat64 (Object.erase k m) = true := by
  induction m with
  | nil => simp [Object.erase, Object.isFloat64]
  | cons e rest ih =>
    obtain ⟨l, w⟩ := e
    simp only [Object.isFloat64, Bool.and_eq_true] at hm
    simp only [Object.erase]
    split_ifs <;> simp [Object.isFloat64, hm.1, ih hm.2]

theorem isFloat64_merge_of_size (n : Nat) :
    ∀ a p : Object, sizeOf p < n → Object.isFloat64 a = true → Object.isFloat64 p = true →
      Object.isFloat64 (merge a p) = true := by
  induction n with
  | zero => intro a p h; exact absurd h (Nat.not_lt_zero _)
  | succ n ih =>
    intro a p
    induction p generalizing a with
    | nil => intro _ ha _; simpa [merge] using ha
    | cons e rest ihp =>
      obtain ⟨k, pv⟩ := e
      intro hsz ha hp
      simp only [Object.isFloat64, Bool.and_eq_true] at hp
      have hrest : sizeOf rest < n + 1 := by
        simp at hsz
        omega
      have hpv : sizeOf pv < n + 1 := by
        simp at hsz
        omega
      simp only [merge]
      refine ihp _ hrest ?_ hp.2
      cases pv with
      | null => simpa [mergeKey] using isFloat64_erase k ha
      | obj pm =>
        have hpm : Object.isFloat64 pm = true := by simpa [Value.isFloat64] using hp.1
        have hszm : sizeOf pm < n := by
          simp at hpv
          omega
        simp only [mergeKey]
        split
        · rename_i bm hbm
          apply isFloat64_insert k ha
          have hbmf : Object.isFloat64 bm = true := by
            simpa [Value.isFloat64] using isFloat64_lookup ha hbm
          simpa [Value.isFloat64] using ih bm pm hszm hbmf hpm
        · exact isFloat64_insert k ha hp.1
      | _ => simpa [mergeKey] using isFloat64_insert k ha hp.1

/-- Merging documents whose numbers are float64 gives such a document, which
decoding leaves as it is. -/
theorem unmarshalMembers_merge {a p : Object} (ha : Object.isFloat64 a = true)
    (hp : Object.isFloat64 p = true) : Value.unmarshalMembers (merge a p) = merge a p :=
  Value.unmarshalMembers_exact _
    (isFloat64_merge_of_size (sizeOf p + 1) a p (Nat.lt_succ_self _) ha hp)

/-! ## After-inference with the engines of the spec -/

theorem inferAfter_merge (render : Object → Object → Except Error String) {c : Change}
    {b p : Object} (h1 : c.command ≠ MigratorSet) (h2 : c.command ≠ MigratorAdd)
    (h3 : c.command ≠ MigratorDelete) (hb : c.before = some b)
    (hp : c.patch = some p ∨ (c.patch = none ∧ c.instruction = .encoded (.obj p))) :
    inferAfter (specEngines render) c =
      ({ c with after := some (Value.unmarshalMembers (merge b p)) }, none) := by
  unfold inferAfter
  rw [if_neg h1, if_neg h2, if_neg h3]
  rcases hp with hp | ⟨hp, hi⟩
  · simp [hb, hp, specEngines, applyDiffPatch, marshalMap, decodeRoot, decodePatch, unmarshalMap]
  · simp [hb, hp, hi, specEngines, applyDiffPatch, marshalMap, decodeRoot, decodePatch,
      unmarshalMap, JsonText.isEmpty]

/-- After a successful after-inference with the engines of the spec on
canonical inputs, `after` is nil or canonical. -/
theorem inferAfter_canon (render : Object → Object → Except Error String) {c : Change}
    (hc : c.canonInputs = true) (hok : (inferAfter (specEngines render) c).2 = none) :
    canonOpt (inferAfter (specEngines render) c).1.after = true := by
  simp only [Change.canonInputs, Bool.and_eq_true] at hc
  obtain ⟨⟨hcb, hcp⟩, hci⟩ := hc
  by_cases h1 : c.command = MigratorSet
  · unfold inferAfter
    rw [if_pos h1]
    exact hcp
  by_cases h2 : c.command = MigratorAdd
  · unfold inferAfter
    rw [if_neg h1, if_pos h2]
    exact hcp
  by_cases h3 : c.command = MigratorDelete
  · unfold inferAfter
    rw [if_neg h1, if_neg h2, if_pos h3]
    rfl
  cases hb : c.before with
  | none => simp [inferAfter, h1, h2, h3, hb] at hok
  | some b =>
    have hcb' : Object.canon b = true := by simpa [hb, canonOpt] using hcb
    cases hp : c.patch with
    | some p =>
      have hcp' : Object.canon p = true := by simpa [hp, canonOpt] using hcp
      rw [inferAfter_merge render h1 h2 h3 hb (Or.inl hp)]
      exact canon_unmarshalMembers (canon_merge hcb' hcp')
    | none =>
      cases hi : c.instruction with
      | empty => simp [inferAfter, h1, h2, h3, hb, hp, hi, JsonText.isEmpty] at hok
      | malformed raw =>
        simp [inferAfter, h1, h2, h3, hb, hp, hi, JsonText.isEmpty, specEngines, applyDiffPatch,
          marshalMap, decodeRoot, decodePatch] at hok
      | encoded v =>
        cases v with
        | obj p =>
          have hcp' : Object.canon p = true := by simpa [hi, JsonText.canon] using hci
          rw [inferAfter_merge render h1 h2 h3 hb (Or.inr ⟨hp, hi⟩)]
          exact canon_unmarshalMembers (canon_merge hcb' hcp')
        | _ =>
          simp [inferAfter, h1, h2, h3, hb, hp, hi, JsonText.isEmpty, specEngines,
            applyDiffPatch, marshalMap, decodeRoot, decodePatch] at hok

/-- The pretty-diff step succeeds only when both documents are present. -/
theorem inferPrettyDiff_ok {E : Engines} {c : Change} (h : (inferPrettyDiff E c).2 = none) :
    ∃ b a, c.before = some b ∧ c.after = some a := by
  unfold inferPrettyDiff at h
  split at h
  · exact ⟨_, _, by assumption, by assumption⟩
  · simp at h

/-- The rollback step with the engines of the spec writes the diff from `after` to `before`. -/
theorem inferRollback_spec (render : Object → Object → Except Error String) {c : Change}
    {a b : Object} (ha : c.after = some a) (hb : c.before = some b) :
    inferRollback (specEngines render) c =
      ({ c with rollback := .encoded (.obj (diff a b)) }, none) := by
  simp [inferRollback, ha, hb, specEngines, getDiffPatch, marshalMap, decodeRoot]

/-! ## The claims -/

/-- C2, as stated, fails: with `a` the empty object and `b` the object
`{"a": null}`, the diff is `{"a": null}` and merging it into `a` deletes the
key instead of storing `null`, so the result is the empty object, not `b`. -/
theorem merge_diff_round_trip_fails_on_null :
    Object.canon [] = true ∧ Object.canon [("a", Value.null)] = true ∧
      diff [] [("a", Value.null)] = [("a", Value.null)] ∧
      merge [] (diff [] [("a", Value.null)]) = [] ∧
      merge [] (diff [] [("a", Value.null)]) ≠ [("a", Value.null)] := by
  decide

/-- C2 (amended): for all pairs of Objects `a`, `b` (maps with unique keys, in
canonical form), `merge a (diff a b)` equals `b` if and only if every `null`
member of `b` is unchanged from `a`: wherever `b` holds `null` under a key, at
the top level or inside an object that `a` also holds as an object at the
same place, `a` holds `null` under that key too.  In particular the round
trip holds whenever `b` has no `null` member, at the top level or in an
object nested under object members. -/
theorem merge_diff_round_trip (a b : Object) (ha : Object.canon a = true)
    (hb : Object.canon b = true) :
    (merge a (diff a b) = b ↔ Object.nullsKept a b = true) ∧
      (Object.noNull b = true → merge a (diff a b) = b) :=
  ⟨merge_diff_iff ha hb, fun hn => (merge_diff_iff ha hb).2 (nullsKept_of_noNull a hn)⟩

/-- The round trip on the documents of the update scenario, and on a target whose `null`
member is unchanged from the source. -/
theorem merge_diff_round_trip_witness :
    Object.canon sampleAfter = true ∧ Object.canon sampleBefore = true ∧
      Object.noNull sampleBefore = true ∧
      merge sampleAfter (diff sampleAfter sampleBefore) = sampleBefore ∧
      Object.nullsKept [("a", Value.null), ("b", Value.num 1)]
        [("a", Value.null), ("b", Value.num 2)] = true ∧
      merge [("a", Value.null), ("b", Value.num 1)]
        (diff [("a", Value.null), ("b", Value.num 1)] [("a", Value.null), ("b", Value.num 2)])
        = [("a", Value.null), ("b", Value.num 2)] :=
  ⟨by decide, by decide, by decide,
    (merge_diff_round_trip sampleAfter sampleBefore (by decide) (by decide)).2 (by decide),
    by decide,
    (merge_diff_round_trip [("a", Value.null), ("b", Value.num 1)]
      [("a", Value.null), ("b", Value.num 2)] (by decide) (by decide)).1.2 (by decide)⟩

/-- C4: for every Change whose command is Set or Add, the after-inference step
succeeds and sets `after` to `patch`, whatever `before` and `instruction`
are and whatever the engines do; no other field changes. -/
theorem inferAfter_set_add (E : Engines) (c : Change)
    (h : c.command = MigratorSet ∨ c.command = MigratorAdd) :
    inferAfter E c = ({ c with after := c.patch }, none) := by
  unfold inferAfter
  rcases h with h | h
  · rw [if_pos h]
  · have h2 : c.command ≠ MigratorSet := by rw [h]; decide
    rw [if_neg h2, if_pos h]

/-- The Set scenario of the tests: `after` is the patch. -/
theorem inferAfter_set_add_witness :
    ((NewChange "test/test" (some sampleBefore) (some samplePatch) MigratorSet .empty).command
        = MigratorSet ∨
      (NewChange "test/test" (some sampleBefore) (some samplePatch) MigratorSet .empty).command
        = MigratorAdd) ∧
    (inferAfter (specEngines prettydiff)
      (NewChange "test/test" (some sampleBefore) (some samplePatch) MigratorSet .empty)).1.after
      = some samplePatch := by
  refine ⟨Or.inl rfl, ?_⟩
  rw [inferAfter_set_add (specEngines prettydiff) _ (Or.inl rfl)]
  rfl

/-- C7: for every Change whose command is Unknown on entry and on which
`SolveChange` succeeds, `after` is an Object, the resulting command is Set
when `after` is non-empty and Delete when `after` is empty; so the inferred
command is always one of these two. -/
theorem command_inference_consistent (E : Engines) (c : Change)
    (hcmd : c.command = MigratorUnknown) (hok : (SolveChange E c).2 = none) :
    ∃ a, (SolveChange E c).1.after = some a ∧
      (a ≠ [] → (SolveChange E c).1.command = MigratorSet) ∧
      (a = [] → (SolveChange E c).1.command = MigratorDelete) ∧
      ((SolveChange E c).1.command = MigratorSet ∨
        (SolveChange E c).1.command = MigratorDelete) := by
  obtain ⟨c1, c2, c3, c4, h1, h2, h3, h4, hS⟩ := SolveChange_ok hok
  obtain ⟨a1, hw1⟩ := inferAfter_writes E { c with errState := none }
  rw [h1] at hw1
  simp only at hw1
  obtain ⟨s, hw3⟩ := inferPrettyDiff_writes E c2
  rw [h3] at hw3
  simp only at hw3
  obtain ⟨r, hw4⟩ := inferRollback_writes E c3
  rw [h4] at hw4
  simp only at hw4
  have hc1 : c1.command = MigratorUnknown := by rw [hw1]; exact hcmd
  rw [inferCommand_unknown hc1] at h2
  rw [hS, hw4, hw3]
  simp only
  cases ha : c1.after with
  | none => rw [ha] at h2; simp at h2
  | some a =>
    rw [ha] at h2
    simp only at h2
    refine ⟨a, ?_, ?_, ?_, ?_⟩
    · split_ifs at h2 <;> simp only [Prod.mk.injEq, and_true] at h2 <;> rw [← h2]
    · intro hne
      have hpos : a.length > 0 := List.length_pos.2 hne
      rw [if_pos hpos] at h2
      simp only [Prod.mk.injEq, and_true] at h2
      rw [← h2]
    · intro he
      have hnpos : ¬ a.length > 0 := by simp [he]
      rw [if_neg hnpos] at h2
      simp only [Prod.mk.injEq, and_true] at h2
      rw [← h2]
    · split_ifs at h2 <;> simp only [Prod.mk.injEq, and_true] at h2 <;> rw [← h2]
      · exact Or.inl rfl
      · exact Or.inr rfl

/-- An instruction-driven change with the Unknown command resolves, and its command is
inferred. -/
theorem command_inference_consistent_witness :
    (NewChange "test/test" (some sampleBefore) none MigratorUnknown
        (.encoded (.obj samplePatch))).command = MigratorUnknown ∧
    (SolveChange (specEngines prettydiff) (NewChange "test/test" (some sampleBefore) none
        MigratorUnknown (.encoded (.obj samplePatch)))).2 = none ∧
    ∃ a, (SolveChange (specEngines prettydiff) (NewChange "test/test" (some sampleBefore) none
        MigratorUnknown (.encoded (.obj samplePatch)))).1.after = some a ∧
      (a ≠ [] → (SolveChange (specEngines prettydiff) (NewChange "test/test"
        (some sampleBefore) none MigratorUnknown (.encoded (.obj samplePatch)))).1.command
          = MigratorSet) ∧
      (a = [] → (SolveChange (specEngines prettydiff) (NewChange "test/test"
        (some sampleBefore) none MigratorUnknown (.encoded (.obj samplePatch)))).1.command
          = MigratorDelete) ∧
      ((SolveChange (specEngines prettydiff) (NewChange "test/test"
        (some sampleBefore) none MigratorUnknown (.encoded (.obj samplePatch)))).1.command
          = MigratorSet ∨
       (SolveChange (specEngines prettydiff) (NewChange "test/test"
        (some sampleBefore) none MigratorUnknown (.encoded (.obj samplePatch)))).1.command
          = MigratorDelete) :=
  ⟨rfl, by decide, command_inference_consistent (specEngines prettydiff) _ rfl (by decide)⟩

/-- C8: for every Change whose command on entry is Update, Set, Add or Delete,
the command after `SolveChange` is the command on entry, whether resolution
succeeds or fails, and the command-inference step returns success with the
state unchanged whatever `after` holds. -/
theorem explicit_command_kept (E : Engines) (c : Change)
    (h : c.command = MigratorUpdate ∨ c.command = MigratorSet ∨ c.command = MigratorAdd ∨
      c.command = MigratorDelete) :
    (SolveChange E c).1.command = c.command ∧
      ∀ a, inferCommand { c with after := a } = ({ c with after := a }, none) := by
  have hne : c.command ≠ MigratorUnknown := by
    rcases h with h | h | h | h <;> rw [h] <;> decide
  refine ⟨?_, fun a => inferCommand_explicit (c := { c with after := a }) hne⟩
  unfold SolveChange
  simp only
  obtain ⟨a, ha⟩ := inferAfter_writes E { c with errState := none }
  rcases h1 : inferAfter E { c with errState := none } with ⟨c1, _ | e1⟩
  · rw [h1] at ha
    simp only at ha
    subst ha
    simp only
    rw [inferCommand_explicit (c := { c with errState := none, after := a }) hne]
    simp only
    obtain ⟨s, hs⟩ := inferPrettyDiff_writes E { c with errState := none, after := a }
    rcases h3 : inferPrettyDiff E { c with errState := none, after := a } with ⟨c3, _ | e3⟩
    · rw [h3] at hs
      simp only at hs
      subst hs
      simp only
      obtain ⟨r, hr⟩ := inferRollback_writes E
        { c with errState := none, after := a, prettyDiff := s }
      rcases h4 : inferRollback E { c with errState := none, after := a, prettyDiff := s }
        with ⟨c4, _ | e4⟩
      · rw [h4] at hr
        simp only at hr
        subst hr
        rfl
      · rw [h4] at hr
        simp only at hr
        subst hr
        rfl
    · rw [h3] at hs
      simp only at hs
      subst hs
      rfl
  · rw [h1] at ha
    simp only at ha
    subst ha
    rfl

/-- The update scenario of the tests keeps the command Update. -/
theorem explicit_command_kept_witness :
    ((NewChange "test/test" (some sampleBefore) (some samplePatch) MigratorUpdate .empty).command
        = MigratorUpdate ∨
      (NewChange "test/test" (some sampleBefore) (some samplePatch) MigratorUpdate .empty).command
        = MigratorSet ∨
      (NewChange "test/test" (some sampleBefore) (some samplePatch) MigratorUpdate .empty).command
        = MigratorAdd ∨
      (NewChange "test/test" (some sampleBefore) (some samplePatch) MigratorUpdate .empty).command
        = MigratorDelete) ∧
    (SolveChange (specEngines prettydiff)
      (NewChange "test/test" (some sampleBefore) (some samplePatch) MigratorUpdate .empty)).1.command
      = MigratorUpdate :=
  ⟨Or.inl rfl, (explicit_command_kept (specEngines prettydiff)
    (NewChange "test/test" (some sampleBefore) (some samplePatch) MigratorUpdate .empty)
    (Or.inl rfl)).1⟩

/-- C9: for every freshly constructed Change whose command is Update or
Unknown, if `before` is nil, or `patch` is nil and `instruction` is the empty
string, then `SolveChange` returns the MissingInput error of the
after-inference step, `errState` holds that error, `after` stays nil,
`prettyDiff` and `rollback` stay empty and the command is unchanged. -/
theorem missing_input_at_after_inference (E : Engines) (docPath : String)
    (before patch : Option Object) (command : Command) (instruction : JsonText)
    (hcmd : command = MigratorUpdate ∨ command = MigratorUnknown)
    (hin : before = none ∨ (patch = none ∧ instruction = .empty)) :
    (SolveChange E (NewChange docPath before patch command instruction)).2
        = some .needBeforeAndPatch ∧
      Error.isMissingInput .needBeforeAndPatch = true ∧
      (inferAfter E { NewChange docPath before patch command instruction with
        errState := none }).2 = some .needBeforeAndPatch ∧
      (SolveChange E (NewChange docPath before patch command instruction)).1.errState
        = some .needBeforeAndPatch ∧
      (SolveChange E (NewChange docPath before patch command instruction)).1.after = none ∧
      (SolveChange E (NewChange docPath before patch command instruction)).1.prettyDiff = "" ∧
      (SolveChange E (NewChange docPath before patch command instruction)).1.rollback
        = .empty ∧
      (SolveChange E (NewChange docPath before patch command instruction)).1.command
        = command := by
  have h1 : command ≠ MigratorSet := by rcases hcmd with h | h <;> rw [h] <;> decide
  have h2 : command ≠ MigratorAdd := by rcases hcmd with h | h <;> rw [h] <;> decide
  have h3 : command ≠ MigratorDelete := by rcases hcmd with h | h <;> rw [h] <;> decide
  have hg : (before.isNone || (patch.isNone && instruction.isEmpty)) = true := by
    rcases hin with h | ⟨h, h'⟩
    · simp [h]
    · simp [h, h', JsonText.isEmpty]
  have hA : inferAfter E { NewChange docPath before patch command instruction with
      errState := none } =
      ({ NewChange docPath before patch command instruction with errState := none },
        some .needBeforeAndPatch) := by
    unfold inferAfter
    simp only [NewChange]
    rw [if_neg h1, if_neg h2, if_neg h3, if_pos hg]
  have hS : SolveChange E (NewChange docPath before patch command instruction) =
      ({ NewChange docPath before patch command instruction with
          errState := some .needBeforeAndPatch }, some .needBeforeAndPatch) := by
    unfold SolveChange
    simp only
    rw [hA]
  rw [hS, hA]
  exact ⟨rfl, rfl, rfl, rfl, rfl, rfl, rfl, rfl⟩

/-- The failure scenario: no `before`, no `patch`, empty instruction, Unknown command. -/
theorem missing_input_at_after_inference_witness :
    ((MigratorUnknown = MigratorUpdate ∨ MigratorUnknown = MigratorUnknown) ∧
      ((none : Option Object) = none ∨
        ((none : Option Object) = none ∧ JsonText.empty = JsonText.empty))) ∧
    (SolveChange (specEngines prettydiff)
      (NewChange "test/test" none none MigratorUnknown .empty)).2 = some .needBeforeAndPatch ∧
    (SolveChange (specEngines prettydiff)
      (NewChange "test/test" none none MigratorUnknown .empty)).1.rollback = .empty :=
  ⟨⟨Or.inr rfl, Or.inl rfl⟩,
    (missing_input_at_after_inference (specEngines prettydiff) "test/test" none none
      MigratorUnknown .empty (Or.inr rfl) (Or.inl rfl)).1,
    (missing_input_at_after_inference (specEngines prettydiff) "test/test" none none
      MigratorUnknown .empty (Or.inr rfl) (Or.inl rfl)).2.2.2.2.2.2.1⟩

/-- C10: a freshly constructed Change with `before` = nil is never resolved:
for every command and every `patch` and `instruction`, `SolveChange` returns a
MissingInput error and leaves `prettyDiff` and `rollback` empty.  Likewise a
Set or Add Change whose `patch` is nil passes after-inference (with `after` =
nil) and command-inference and fails with MissingInput at the pretty-diff
step, whatever `before` is. -/
theorem nil_before_or_nil_patch_fails (E : Engines) (docPath : String) :
    (∀ (patch : Option Object) (command : Command) (instruction : JsonText),
      (∃ e, (SolveChange E (NewChange docPath none patch command instruction)).2 = some e ∧
        Error.isMissingInput e = true) ∧
      (SolveChange E (NewChange docPath none patch command instruction)).1.prettyDiff = "" ∧
      (SolveChange E (NewChange docPath none patch command instruction)).1.rollback
        = .empty) ∧
    (∀ (before : Option Object) (command : Command) (instruction : JsonText),
      command = MigratorSet ∨ command = MigratorAdd →
      (inferAfter E { NewChange docPath before none command instruction with
        errState := none }).2 = none ∧
      (inferAfter E { NewChange docPath before none command instruction with
        errState := none }).1.after = none ∧
      (inferCommand (inferAfter E { NewChange docPath before none command instruction with
        errState := none }).1).2 = none ∧
      (inferPrettyDiff E (inferCommand (inferAfter E
        { NewChange docPath before none command instruction with
          errState := none }).1).1).2 = some .needBeforeAfterForPrettyDiff ∧
      (SolveChange E (NewChange docPath before none command instruction)).2
        = some .needBeforeAfterForPrettyDiff ∧
      Error.isMissingInput .needBeforeAfterForPrettyDiff = true) := by
  constructor
  · intro patch command instruction
    by_cases h1 : command = MigratorSet
    · subst h1
      simp [SolveChange, inferAfter, inferCommand, inferPrettyDiff, NewChange,
        Error.isMissingInput, MigratorSet, MigratorUnknown]
    by_cases h2 : command = MigratorAdd
    · subst h2
      simp [SolveChange, inferAfter, inferCommand, inferPrettyDiff, NewChange,
        Error.isMissingInput, MigratorSet, MigratorAdd, MigratorUnknown]
    by_cases h3 : command = MigratorDelete
    · subst h3
      simp [SolveChange, inferAfter, inferCommand, inferPrettyDiff, NewChange,
        Error.isMissingInput, MigratorSet, MigratorAdd, MigratorDelete, MigratorUnknown]
    · simp [SolveChange, inferAfter, NewChange, Error.isMissingInput, h1, h2, h3]
  · intro before command instruction hcmd
    rcases hcmd with h | h <;> subst h <;> cases before <;>
      simp [SolveChange, inferAfter, inferCommand, inferPrettyDiff, NewChange,
        Error.isMissingInput, MigratorSet, MigratorAdd, MigratorUnknown]

/-- A Set change without a patch, and a Delete change without `before`, both fail. -/
theorem nil_before_or_nil_patch_fails_witness :
    (MigratorSet = MigratorSet ∨ MigratorSet = MigratorAdd) ∧
    (SolveChange (specEngines prettydiff)
      (NewChange "test/test" (some sampleBefore) none MigratorSet .empty)).2
        = some .needBeforeAfterForPrettyDiff ∧
    (∃ e, (SolveChange (specEngines prettydiff)
      (NewChange "test/test" none (some samplePatch) MigratorDelete .empty)).2 = some e ∧
        Error.isMissingInput e = true) :=
  ⟨Or.inl rfl,
    ((nil_before_or_nil_patch_fails (specEngines prettydiff) "test/test").2
      (some sampleBefore) MigratorSet .empty (Or.inl rfl)).2.2.2.2.1,
    ((nil_before_or_nil_patch_fails (specEngines prettydiff) "test/test").1
      (some samplePatch) MigratorDelete .empty).1⟩

/-- C3, as stated, fails: `inferAfter` decodes the merged text with
`json.Unmarshal` into a `map[string]any`, where every number is a float64.
Updating `{"n": 9007199254740993}` with the patch `{"m": 1}` succeeds with
`after` = `{"m": 1, "n": 9007199254740992}`, which is not the merged document
`{"m": 1, "n": 9007199254740993}`, and the key `n`, which the patch does not
mention, is not carried over unchanged. -/
theorem inferAfter_rounds_large_numbers :
    (inferAfter (specEngines prettydiff) (NewChange "test/test"
      (some [("n", Value.num 9007199254740993)]) (some [("m", Value.num 1)])
      MigratorUpdate .empty)).2 = none ∧
    (inferAfter (specEngines prettydiff) (NewChange "test/test"
      (some [("n", Value.num 9007199254740993)]) (some [("m", Value.num 1)])
      MigratorUpdate .empty)).1.after
      = some [("m", Value.num 1), ("n", Value.num 9007199254740992)] ∧
    merge [("n", Value.num 9007199254740993)] [("m", Value.num 1)]
      = [("m", Value.num 1), ("n", Value.num 9007199254740993)] ∧
    (inferAfter (specEngines prettydiff) (NewChange "test/test"
      (some [("n", Value.num 9007199254740993)]) (some [("m", Value.num 1)])
      MigratorUpdate .empty)).1.after
      ≠ some (merge [("n", Value.num 9007199254740993)] [("m", Value.num 1)]) ∧
    Object.lookup "n" [("m", Value.num 1)] = none ∧
    Object.lookup "n" [("m", Value.num 1), ("n", Value.num 9007199254740992)]
      ≠ Object.lookup "n" [("n", Value.num 9007199254740993)] := by
  decide

/-- C3 (amended): for every Change whose command is Update or Unknown and
whose `before` is an Object `b`, after-inference with the engines of the spec
succeeds and sets `after` to `merge b p` as `json.Unmarshal` decodes it into a
map, every number replaced by the nearest float64 (nil when out of range),
when `patch` is the Object `p`, and also when `patch` is nil and `instruction`
is the text of the Object `p`; no other field changes, and every key that `p`
does not mention holds in `after` the decoded value of what it holds in `b`.
When every number of `b` and `p` is a float64, `after` is `merge b p` itself
and every key that `p` does not mention holds what it holds in `b`. -/
theorem inferAfter_update_unknown (render : Object → Object → Except Error String)
    (c : Change) (b : Object)
    (hcmd : c.command = MigratorUpdate ∨ c.command = MigratorUnknown)
    (hb : c.before = some b) :
    (∀ p, c.patch = some p →
      inferAfter (specEngines render) c =
        ({ c with after := some (Value.unmarshalMembers (merge b p)) }, none)) ∧
    (∀ p, c.patch = none → c.instruction = .encoded (.obj p) →
      inferAfter (specEngines render) c =
        ({ c with after := some (Value.unmarshalMembers (merge b p)) }, none)) ∧
    (∀ p k, Object.lookup k p = none →
      Object.lookup k (Value.unmarshalMembers (merge b p))
        = (Object.lookup k b).map Value.unmarshalAny) ∧
    (∀ p, Object.isFloat64 b = true → Object.isFloat64 p = true →
      Value.unmarshalMembers (merge b p) = merge b p ∧
      ∀ k, Object.lookup k p = none →
        Object.lookup k (Value.unmarshalMembers (merge b p)) = Object.lookup k b) := by
  have h1 : c.command ≠ MigratorSet := by rcases hcmd with h | h <;> rw [h] <;> decide
  have h2 : c.command ≠ MigratorAdd := by rcases hcmd with h | h <;> rw [h] <;> decide
  have h3 : c.command ≠ MigratorDelete := by rcases hcmd with h | h <;> rw [h] <;> decide
  refine ⟨fun p hp => inferAfter_merge render h1 h2 h3 hb (Or.inl hp),
    fun p hp hi => inferAfter_merge render h1 h2 h3 hb (Or.inr ⟨hp, hi⟩), ?_, ?_⟩
  · intro p k hk
    rw [lookup_unmarshalMembers, lookup_merge_of_absent b p k hk]
  · intro p hfb hfp
    refine ⟨unmarshalMembers_merge hfb hfp, ?_⟩
    intro k hk
    rw [unmarshalMembers_merge hfb hfp, lookup_merge_of_absent b p k hk]

/-- The update scenario of the tests, whose numbers are float64: `after` is the merged
document and the untouched key `b` is carried over. -/
theorem inferAfter_update_unknown_witness :
    ((NewChange "test/test" (some sampleBefore) (some samplePatch) MigratorUpdate .empty).command
        = MigratorUpdate ∨
      (NewChange "test/test" (some sampleBefore) (some samplePatch) MigratorUpdate .empty).command
        = MigratorUnknown) ∧
    (NewChange "test/test" (some sampleBefore) (some samplePatch) MigratorUpdate .empty).before
      = some sampleBefore ∧
    Object.isFloat64 sampleBefore = true ∧ Object.isFloat64 samplePatch = true ∧
    (inferAfter (specEngines prettydiff)
      (NewChange "test/test" (some sampleBefore) (some samplePatch) MigratorUpdate .empty)).1.after
      = some sampleAfter ∧
    Object.lookup "b" (Value.unmarshalMembers (merge sampleBefore samplePatch))
      = Object.lookup "b" sampleBefore := by
  have h := inferAfter_update_unknown prettydiff
    (NewChange "test/test" (some sampleBefore) (some samplePatch) MigratorUpdate .empty)
    sampleBefore (Or.inl rfl) rfl
  refine ⟨Or.inl rfl, rfl, by decide, by decide, ?_,
    (h.2.2.2 samplePatch (by decide) (by decide)).2 "b" (by decide)⟩
  rw [h.1 samplePatch rfl, (h.2.2.2 samplePatch (by decide) (by decide)).1]
  decide

/-- C5: for every Change whose command is Delete and whose `before` is an
Object `b`, whatever `patch` and `instruction` are, resolution with the
engines of the spec sets `after` to the empty Object and keeps the command
Delete, and when it succeeds the rollback is the text of `b` itself, so it
parses to `before`. -/
theorem delete_scenario (render : Object → Object → Except Error String) (c : Change)
    (b : Object) (hcmd : c.command = MigratorDelete) (hb : c.before = some b)
    (hcb : Object.canon b = true) :
    (SolveChange (specEngines render) c).1.after = some [] ∧
      (SolveChange (specEngines render) c).1.command = MigratorDelete ∧
      ((SolveChange (specEngines render) c).2 = none →
        (SolveChange (specEngines render) c).1.rollback = .encoded (.obj b) ∧
        decodePatch (SolveChange (specEngines render) c).1.rollback = .ok b) := by
  have hsb := ((Object.canon_iff b).1 hcb).1
  have h1 : c.command ≠ MigratorSet := by rw [hcmd]; decide
  have h2 : c.command ≠ MigratorAdd := by rw [hcmd]; decide
  have h0 : c.command ≠ MigratorUnknown := by rw [hcmd]; decide
  have hA : inferAfter (specEngines render) { c with errState := none } =
      ({ c with errState := none, after := some [] }, none) := by
    unfold inferAfter
    simp only
    rw [if_neg h1, if_neg h2, if_pos hcmd]
  have hC := inferCommand_explicit (c := { c with errState := none, after := some [] }) h0
  unfold SolveChange
  simp only
  rw [hA]
  simp only
  rw [hC]
  simp only
  cases hr : render b [] with
  | error e =>
    have hP : inferPrettyDiff (specEngines render) { c with errState := none, after := some [] }
        = ({ c with errState := none, after := some [] }, some e) := by
      simp [inferPrettyDiff, hb, specEngines, hr]
    rw [hP]
    simp [hcmd]
  | ok s =>
    have hP : inferPrettyDiff (specEngines render) { c with errState := none, after := some [] }
        = ({ c with errState := none, after := some [], prettyDiff := s }, none) := by
      simp [inferPrettyDiff, hb, specEngines, hr]
    rw [hP]
    simp only
    rw [inferRollback_spec render
      (c := { c with errState := none, after := some [], prettyDiff := s }) rfl hb]
    simp [hcmd, diff_nil_left hsb, decodePatch]

/-- The delete scenario of the tests: the rollback is the former document. -/
theorem delete_scenario_witness :
    (NewChange "test/test" (some sampleBefore) (some samplePatch) MigratorDelete .empty).command
      = MigratorDelete ∧
    (NewChange "test/test" (some sampleBefore) (some samplePatch) MigratorDelete .empty).before
      = some sampleBefore ∧
    Object.canon sampleBefore = true ∧
    (SolveChange (specEngines prettydiff) (NewChange "test/test" (some sampleBefore)
      (some samplePatch) MigratorDelete .empty)).2 = none ∧
    (SolveChange (specEngines prettydiff) (NewChange "test/test" (some sampleBefore)
      (some samplePatch) MigratorDelete .empty)).1.after = some [] ∧
    (SolveChange (specEngines prettydiff) (NewChange "test/test" (some sampleBefore)
      (some samplePatch) MigratorDelete .empty)).1.rollback = .encoded (.obj sampleBefore) := by
  have h := delete_scenario prettydiff
    (NewChange "test/test" (some sampleBefore) (some samplePatch) MigratorDelete .empty)
    sampleBefore rfl rfl (by decide)
  exact ⟨rfl, rfl, by decide, by decide, h.1, (h.2.2 (by decide)).1⟩

/-- C6: for every Change whose command is Add, whose `before` is the empty
Object and whose `patch` is an Object `p`, a successful resolution with the
engines of the spec yields `after` = `p` and a rollback that holds exactly the
top-level keys of `p`, each mapped to `null`. -/
theorem add_scenario (render : Object → Object → Except Error String) (c : Change)
    (p : Object) (hcmd : c.command = MigratorAdd) (hb : c.before = some [])
    (hp : c.patch = some p) (hcp : Object.canon p = true)
    (hok : (SolveChange (specEngines render) c).2 = none) :
    (SolveChange (specEngines render) c).1.after = some p ∧
      (SolveChange (specEngines render) c).1.rollback = .encoded (.obj (Object.nulled p)) := by
  have hsp := ((Object.canon_iff p).1 hcp).1
  have h1 : c.command ≠ MigratorSet := by rw [hcmd]; decide
  have h0 : c.command ≠ MigratorUnknown := by rw [hcmd]; decide
  have hA : inferAfter (specEngines render) { c with errState := none } =
      ({ c with errState := none, after := some p }, none) := by
    unfold inferAfter
    simp only
    rw [if_neg h1, if_pos hcmd, hp]
  have hC := inferCommand_explicit (c := { c with errState := none, after := some p }) h0
  unfold SolveChange at hok ⊢
  simp only at hok ⊢
  rw [hA] at hok ⊢
  simp only at hok ⊢
  rw [hC] at hok ⊢
  simp only at hok ⊢
  cases hr : render [] p with
  | error e =>
    have hP : inferPrettyDiff (specEngines render) { c with errState := none, after := some p }
        = ({ c with errState := none, after := some p }, some e) := by
      simp [inferPrettyDiff, hb, specEngines, hr]
    rw [hP] at hok
    simp at hok
  | ok s =>
    have hP : inferPrettyDiff (specEngines render) { c with errState := none, after := some p }
        = ({ c with errState := none, after := some p, prettyDiff := s }, none) := by
      simp [inferPrettyDiff, hb, specEngines, hr]
    rw [hP]
    simp only
    rw [inferRollback_spec render
      (c := { c with errState := none, after := some p, prettyDiff := s }) rfl hb]
    simp [diff_nil_right hsp]

/-- The add scenario of the tests: the rollback sets the five top-level keys to `null`. -/
theorem add_scenario_witness :
    (NewChange "test/test" (some []) (some sampleBefore) MigratorAdd .empty).command
      = MigratorAdd ∧
    (NewChange "test/test" (some []) (some sampleBefore) MigratorAdd .empty).before = some [] ∧
    (NewChange "test/test" (some []) (some sampleBefore) MigratorAdd .empty).patch
      = some sampleBefore ∧
    Object.canon sampleBefore = true ∧
    (SolveChange (specEngines prettydiff)
      (NewChange "test/test" (some []) (some sampleBefore) MigratorAdd .empty)).2 = none ∧
    (SolveChange (specEngines prettydiff)
      (NewChange "test/test" (some []) (some sampleBefore) MigratorAdd .empty)).1.rollback
      = .encoded (.obj [("a", .null), ("b", .null), ("c", .null), ("d", .null), ("e", .null)]) :=
  ⟨rfl, rfl, rfl, by decide, by decide,
    (add_scenario prettydiff (NewChange "test/test" (some []) (some sampleBefore) MigratorAdd
      .empty) sampleBefore rfl rfl rfl (by decide) (by decide)).2⟩

/-- C1, as stated, fails: deleting the document `{"a": null}` resolves
successfully with `after` the empty Object and rollback `{"a": null}`; merging
that rollback into `after` deletes the key `a` again and yields the empty
Object, not `before`. -/
theorem rollback_round_trip_fails_on_null :
    (NewChange "test/test" (some [("a", Value.null)]) none MigratorDelete .empty).canonInputs
      = true ∧
    (SolveChange (specEngines prettydiff)
      (NewChange "test/test" (some [("a", Value.null)]) none MigratorDelete .empty)).2 = none ∧
    (SolveChange (specEngines prettydiff)
      (NewChange "test/test" (some [("a", Value.null)]) none MigratorDelete .empty)).1.before
      = some [("a", Value.null)] ∧
    (SolveChange (specEngines prettydiff)
      (NewChange "test/test" (some [("a", Value.null)]) none MigratorDelete .empty)).1.after
      = some [] ∧
    (SolveChange (specEngines prettydiff)
      (NewChange "test/test" (some [("a", Value.null)]) none MigratorDelete .empty)).1.rollback
      = .encoded (.obj [("a", Value.null)]) ∧
    applyDiffPatch (marshalMap (some [])) (.encoded (.obj [("a", Value.null)]))
      = .ok (.encoded (.obj [])) ∧
    merge [] [("a", Value.null)] ≠ [("a", Value.null)] := by
  refine ⟨by decide, by decide, by decide, by decide, by decide, rfl, by decide⟩

/-- C1 (amended): for every Change whose input documents are maps in canonical
form and on which `SolveChange` with the engines of the spec succeeds, `after`
and `before` are Objects, the rollback parses to a patch, and merging that
patch into `after` yields `before` if and only if every `null` member of
`before` was left unchanged by the change: wherever `before` holds `null`
under a key, at the top level or inside an object that `after` also holds as
an object at the same place, `after` holds `null` under that key too.  In
particular the round trip holds, for every command kind, whenever `before`
has no `null` member, at the top level or in an object nested under object
members. -/
theorem rollback_round_trip (render : Object → Object → Except Error String) (c : Change)
    (hc : c.canonInputs = true) (hok : (SolveChange (specEngines render) c).2 = none) :
    ∃ a b p, (SolveChange (specEngines render) c).1.after = some a ∧
      (SolveChange (specEngines render) c).1.before = some b ∧
      decodePatch (SolveChange (specEngines render) c).1.rollback = .ok p ∧
      (merge a p = b ↔ Object.nullsKept a b = true) ∧
      (Object.noNull b = true → merge a p = b) := by
  obtain ⟨c1, c2, c3, c4, h1, h2, h3, h4, hS⟩ := SolveChange_ok hok
  have hci : ({ c with errState := none } : Change).canonInputs = true := hc
  have hcan := inferAfter_canon render hci (by rw [h1])
  rw [h1] at hcan
  simp only at hcan
  obtain ⟨a1, hw1⟩ := inferAfter_writes (specEngines render) { c with errState := none }
  rw [h1] at hw1
  simp only at hw1
  obtain ⟨k, hw2⟩ := inferCommand_writes c1
  rw [h2] at hw2
  simp only at hw2
  obtain ⟨b, a, hb, ha⟩ := inferPrettyDiff_ok (E := specEngines render) (c := c2) (by rw [h3])
  obtain ⟨s, hw3⟩ := inferPrettyDiff_writes (specEngines render) c2
  rw [h3] at hw3
  simp only at hw3
  have ha3 : c3.after = some a := by rw [hw3]; exact ha
  have hb3 : c3.before = some b := by rw [hw3]; exact hb
  rw [inferRollback_spec render ha3 hb3] at h4
  simp only [Prod.mk.injEq, and_true] at h4
  have hbc : c.before = some b := by
    rw [hw2, hw1] at hb
    exact hb
  have hac : c1.after = some a := by
    rw [hw2] at ha
    exact ha
  have hcana : Object.canon a = true := by
    rw [hac] at hcan
    exact hcan
  have hcanb : Object.canon b = true := by
    simp only [Change.canonInputs, Bool.and_eq_true] at hc
    have := hc.1.1
    rw [hbc] at this
    exact this
  have hrt := merge_diff_iff hcana hcanb
  refine ⟨a, b, diff a b, ?_, ?_, ?_, hrt, fun hn => hrt.2 (nullsKept_of_noNull a hn)⟩
  · rw [hS, ← h4]; exact ha3
  · rw [hS, ← h4]; exact hb3
  · rw [hS, ← h4]; rfl

/-- The update scenario of the tests resolves, its rollback is the one the test expects, and
merging it into `after` gives `before` back. -/
theorem rollback_round_trip_witness :
    (NewChange "test/test" (some sampleBefore) (some samplePatch) MigratorUpdate
      .empty).canonInputs = true ∧
    (SolveChange (specEngines prettydiff) (NewChange "test/test" (some sampleBefore)
      (some samplePatch) MigratorUpdate .empty)).2 = none ∧
    (∃ a b p, (SolveChange (specEngines prettydiff) (NewChange "test/test" (some sampleBefore)
        (some samplePatch) MigratorUpdate .empty)).1.after = some a ∧
      (SolveChange (specEngines prettydiff) (NewChange "test/test" (some sampleBefore)
        (some samplePatch) MigratorUpdate .empty)).1.before = some b ∧
      decodePatch (SolveChange (specEngines prettydiff) (NewChange "test/test"
        (some sampleBefore) (some samplePatch) MigratorUpdate .empty)).1.rollback = .ok p ∧
      (merge a p = b ↔ Object.nullsKept a b = true) ∧
      (Object.noNull b = true → merge a p = b)) ∧
    (SolveChange (specEngines prettydiff) (NewChange "test/test" (some sampleBefore)
      (some samplePatch) MigratorUpdate .empty)).1.rollback = .encoded (.obj sampleRollback) ∧
    merge sampleAfter sampleRollback = sampleBefore :=
  ⟨by decide, by decide,
    rollback_round_trip prettydiff (NewChange "test/test" (some sampleBefore) (some samplePatch)
      MigratorUpdate .empty) (by decide) (by decide), by decide, by decide⟩

/-! ## The four steps of a resolution -/

/-- `SolveChange` in terms of its four steps: the first error stops the run
and is stored in `errState`. -/
theorem SolveChange_steps (E : Engines) (c : Change) :
    SolveChange E c =
      match (afterStep E c).2 with
      | some e => ({ (afterStep E c).1 with errState := some e }, some e)
      | none =>
        match (commandStep E c).2 with
        | some e => ({ (commandStep E c).1 with errState := some e }, some e)
        | none =>
          match (prettyStep E c).2 with
          | some e => ({ (prettyStep E c).1 with errState := some e }, some e)
          | none =>
            match (rollbackStep E c).2 with
            | some e => ({ (rollbackStep E c).1 with errState := some e }, some e)
            | none => ((rollbackStep E c).1, none) :=
  SolveChange_run E c

theorem afterStep_state (E : Engines) (c : Change) :
    (afterStep E c).1 = { c with errState := none, after := (afterStep E c).1.after } := by
  obtain ⟨a, ha⟩ := inferAfter_writes E { c with errState := none }
  unfold afterStep
  rw [ha]

theorem commandStep_state (E : Engines) (c : Change) :
    (commandStep E c).1 =
      { c with errState := none, after := (afterStep E c).1.after,
               command := (commandStep E c).1.command } := by
  obtain ⟨k, hk⟩ := inferCommand_writes (afterStep E c).1
  unfold commandStep
  rw [hk]
  conv_lhs => rw [afterStep_state E c]

theorem prettyStep_state (E : Engines) (c : Change) :
    (prettyStep E c).1 =
      { c with errState := none, after := (afterStep E c).1.after,
               command := (commandStep E c).1.command,
               prettyDiff := (prettyStep E c).1.prettyDiff } := by
  obtain ⟨s, hs⟩ := inferPrettyDiff_writes E (commandStep E c).1
  unfold prettyStep
  rw [hs]
  conv_lhs => rw [commandStep_state E c]

theorem rollbackStep_state (E : Engines) (c : Change) :
    (rollbackStep E c).1 =
      { c with errState := none, after := (afterStep E c).1.after,
               command := (commandStep E c).1.command,
               prettyDiff := (prettyStep E c).1.prettyDiff,
               rollback := (rollbackStep E c).1.rollback } := by
  obtain ⟨r, hr⟩ := inferRollback_writes E (prettyStep E c).1
  unfold rollbackStep
  rw [hr]
  conv_lhs => rw [prettyStep_state E c]

/-- A failed after-inference leaves `after` as it was. -/
theorem afterStep_error {E : Engines} {c : Change} {e : Error}
    (h : (afterStep E c).2 = some e) : (afterStep E c).1.after = c.after := by
  unfold afterStep at h ⊢
  rw [inferAfter_error h]

/-- A failed command-inference leaves the command as it was. -/
theorem commandStep_error {E : Engines} {c : Change} {e : Error}
    (h : (commandStep E c).2 = some e) : (commandStep E c).1.command = c.command := by
  unfold commandStep at h ⊢
  rw [inferCommand_error h, afterStep_state E c]

/-- A failed pretty-diff step leaves `prettyDiff` as it was. -/
theorem prettyStep_error {E : Engines} {c : Change} {e : Error}
    (h : (prettyStep E c).2 = some e) : (prettyStep E c).1.prettyDiff = c.prettyDiff := by
  unfold prettyStep at h ⊢
  rw [inferPrettyDiff_error h, commandStep_state E c]

/-- A failed rollback step leaves `rollback` as it was. -/
theorem rollbackStep_error {E : Engines} {c : Change} {e : Error}
    (h : (rollbackStep E c).2 = some e) : (rollbackStep E c).1.rollback = c.rollback := by
  unfold rollbackStep at h ⊢
  rw [inferRollback_error h, prettyStep_state E c]

/-- An explicit command passes command-inference unchanged. -/
theorem commandStep_explicit (E : Engines) {c : Change} (h : c.command ≠ MigratorUnknown) :
    (commandStep E c).2 = none ∧ (commandStep E c).1.command = c.command := by
  have hc : (afterStep E c).1.command ≠ MigratorUnknown := by
    rw [afterStep_state E c]; exact h
  unfold commandStep
  rw [inferCommand_explicit hc]
  refine ⟨rfl, ?_⟩
  rw [afterStep_state E c]

/-- From the Unknown command, command-inference fails when `after` is nil and
otherwise infers Set from a non-empty `after` and Delete from an empty one. -/
theorem commandStep_unknown (E : Engines) {c : Change} (h : c.command = MigratorUnknown) :
    ((afterStep E c).1.after = none ∧ (commandStep E c).2 = some .needAfterForCommand ∧
        (commandStep E c).1.command = MigratorUnknown) ∨
      (∃ a, (afterStep E c).1.after = some a ∧ a ≠ [] ∧ (commandStep E c).2 = none ∧
        (commandStep E c).1.command = MigratorSet) ∨
      ((afterStep E c).1.after = some [] ∧ (commandStep E c).2 = none ∧
        (commandStep E c).1.command = MigratorDelete) := by
  have hc : (afterStep E c).1.command = MigratorUnknown := by
    rw [afterStep_state E c]; exact h
  unfold commandStep
  rw [inferCommand_unknown hc]
  cases ha : (afterStep E c).1.after with
  | none => exact Or.inl ⟨rfl, rfl, hc⟩
  | some a =>
    cases a with
    | nil => exact Or.inr (Or.inr ⟨rfl, rfl, rfl⟩)
    | cons x xs =>
      refine Or.inr (Or.inl ⟨_, rfl, by simp, ?_, ?_⟩) <;> simp

/-- A command-inference that succeeds never leaves the Unknown command. -/
theorem commandStep_ok {E : Engines} {c : Change} (h : (commandStep E c).2 = none) :
    (commandStep E c).1.command ≠ MigratorUnknown := by
  by_cases hc : c.command = MigratorUnknown
  · rcases commandStep_unknown E hc with ⟨_, h2, _⟩ | ⟨a, _, _, _, h2⟩ | ⟨_, _, h2⟩
    · rw [h2] at h; cases h
    · rw [h2]; decide
    · rw [h2]; decide
  · rw [(commandStep_explicit E hc).2]
    exact hc

/-- The pretty-diff step succeeds only when `before` and `after` are both present. -/
theorem prettyStep_ok {E : Engines} {c : Change} (h : (prettyStep E c).2 = none) :
    ∃ b a, c.before = some b ∧ (afterStep E c).1.after = some a := by
  obtain ⟨b, a, hb, ha⟩ := inferPrettyDiff_ok (E := E) (c := (commandStep E c).1) h
  rw [commandStep_state E c] at hb ha
  exact ⟨b, a, hb, ha⟩
/-- A failed resolution, step by step: the error is stored in `errState`, and
the fields of the failing step and of the steps after it are as they were. -/
theorem SolveChange_failure (E : Engines) (c : Change) (e : Error)
    (h : (SolveChange E c).2 = some e) :
    (SolveChange E c).1.errState = some e ∧ (SolveChange E c).1.rollback = c.rollback ∧
      (((afterStep E c).2 = some e ∧ (SolveChange E c).1.after = c.after ∧
          (SolveChange E c).1.command = c.command ∧
          (SolveChange E c).1.prettyDiff = c.prettyDiff) ∨
        ((afterStep E c).2 = none ∧ (commandStep E c).2 = some e ∧
          (SolveChange E c).1.command = c.command ∧
          (SolveChange E c).1.prettyDiff = c.prettyDiff) ∨
        ((afterStep E c).2 = none ∧ (commandStep E c).2 = none ∧
          (prettyStep E c).2 = some e ∧ (SolveChange E c).1.prettyDiff = c.prettyDiff) ∨
        ((afterStep E c).2 = none ∧ (commandStep E c).2 = none ∧
          (prettyStep E c).2 = none ∧ (rollbackStep E c).2 = some e)) := by
  rw [SolveChange_steps] at h ⊢
  cases h1 : (afterStep E c).2 with
  | some e1 =>
    rw [h1] at h
    simp only [Option.some.injEq] at h
    subst h
    have hs := afterStep_state E c
    refine ⟨rfl, by rw [hs], Or.inl ⟨rfl, afterStep_error h1, by rw [hs], by rw [hs]⟩⟩
  | none =>
    rw [h1] at h
    simp only at h
    cases h2 : (commandStep E c).2 with
    | some e2 =>
      rw [h2] at h
      simp only [Option.some.injEq] at h
      subst h
      have hs := commandStep_state E c
      refine ⟨rfl, by rw [hs], Or.inr (Or.inl ⟨rfl, rfl, commandStep_error h2, by rw [hs]⟩)⟩
    | none =>
      rw [h2] at h
      simp only at h
      cases h3 : (prettyStep E c).2 with
      | some e3 =>
        rw [h3] at h
        simp only [Option.some.injEq] at h
        subst h
        have hs := prettyStep_state E c
        refine ⟨rfl, by rw [hs], Or.inr (Or.inr (Or.inl ⟨rfl, rfl, rfl, prettyStep_error h3⟩))⟩
      | none =>
        rw [h3] at h
        simp only at h
        cases h4 : (rollbackStep E c).2 with
        | some e4 =>
          rw [h4] at h
          simp only [Option.some.injEq] at h
          subst h
          refine ⟨rfl, rollbackStep_error h4, Or.inr (Or.inr (Or.inr ⟨rfl, rfl, rfl, rfl⟩))⟩
        | none =>
          rw [h4] at h
          simp at h

/-- C11: for every freshly constructed Change, if `SolveChange` returns an
error `e` then `errState` holds `e`, `rollback` is empty, and the failure is in
exactly the first failing step of the sequence after-inference,
command-inference, pretty diff, rollback, each run on the state the previous
one left: a failure in after-inference leaves `after` nil, the command
unchanged and `prettyDiff` empty; a failure in command-inference leaves the
command unchanged and `prettyDiff` empty; a failure in the pretty-diff step
leaves `prettyDiff` empty; the last case is a failure in the rollback step. -/
theorem short_circuit_on_first_failure (E : Engines) (docPath : String)
    (before patch : Option Object) (command : Command) (instruction : JsonText)
    (c : Change) (hc : c = NewChange docPath before patch command instruction)
    (e : Error) (h : (SolveChange E c).2 = some e) :
    (SolveChange E c).1.errState = some e ∧ (SolveChange E c).1.rollback = .empty ∧
      (((afterStep E c).2 = some e ∧ (SolveChange E c).1.after = none ∧
          (SolveChange E c).1.command = command ∧ (SolveChange E c).1.prettyDiff = "") ∨
        ((afterStep E c).2 = none ∧ (commandStep E c).2 = some e ∧
          (SolveChange E c).1.command = command ∧ (SolveChange E c).1.prettyDiff = "") ∨
        ((afterStep E c).2 = none ∧ (commandStep E c).2 = none ∧
          (prettyStep E c).2 = some e ∧ (SolveChange E c).1.prettyDiff = "") ∨
        ((afterStep E c).2 = none ∧ (commandStep E c).2 = none ∧
          (prettyStep E c).2 = none ∧ (rollbackStep E c).2 = some e)) := by
  have hf := SolveChange_failure E c e h
  have h1 : c.after = none := by rw [hc]; rfl
  have h2 : c.command = command := by rw [hc]; rfl
  have h3 : c.prettyDiff = "" := by rw [hc]; rfl
  have h4 : c.rollback = .empty := by rw [hc]; rfl
  rw [h1, h2, h3, h4] at hf
  exact hf

/-- A Set change without a patch fails in the pretty-diff step: the error is in `errState` and
nothing is written after `after`. -/
theorem short_circuit_on_first_failure_witness :
    (SolveChange (specEngines prettydiff)
      (NewChange "test/test" (some sampleBefore) none MigratorSet .empty)).2
        = some .needBeforeAfterForPrettyDiff ∧
    (SolveChange (specEngines prettydiff)
      (NewChange "test/test" (some sampleBefore) none MigratorSet .empty)).1.errState
        = some .needBeforeAfterForPrettyDiff ∧
    (SolveChange (specEngines prettydiff)
      (NewChange "test/test" (some sampleBefore) none MigratorSet .empty)).1.rollback = .empty :=
  ⟨by decide,
    (short_circuit_on_first_failure (specEngines prettydiff) "test/test" (some sampleBefore) none
      MigratorSet .empty _ rfl .needBeforeAfterForPrettyDiff (by decide)).1,
    (short_circuit_on_first_failure (specEngines prettydiff) "test/test" (some sampleBefore) none
      MigratorSet .empty _ rfl .needBeforeAfterForPrettyDiff (by decide)).2.1⟩
/-- After `SolveChange`, `errState` is the error the call returned. -/
theorem SolveChange_errState (E : Engines) (c : Change) :
    (SolveChange E c).1.errState = (SolveChange E c).2 := by
  rw [SolveChange_steps]
  cases h1 : (afterStep E c).2 with
  | some e1 => rfl
  | none =>
    cases h2 : (commandStep E c).2 with
    | some e2 => rfl
    | none =>
      cases h3 : (prettyStep E c).2 with
      | some e3 => rfl
      | none =>
        cases h4 : (rollbackStep E c).2 with
        | some e4 => rfl
        | none =>
          show (rollbackStep E c).1.errState = none
          rw [rollbackStep_state E c]

/-- After `SolveChange`, `after` is what after-inference left. -/
theorem SolveChange_after (E : Engines) (c : Change) :
    (SolveChange E c).1.after = (afterStep E c).1.after := by
  rw [SolveChange_steps]
  cases h1 : (afterStep E c).2 with
  | some e1 => rfl
  | none =>
    cases h2 : (commandStep E c).2 with
    | some e2 =>
      show (commandStep E c).1.after = _
      rw [commandStep_state E c]
    | none =>
      cases h3 : (prettyStep E c).2 with
      | some e3 =>
        show (prettyStep E c).1.after = _
        rw [prettyStep_state E c]
      | none =>
        cases h4 : (rollbackStep E c).2 with
        | some e4 =>
          show (rollbackStep E c).1.after = _
          rw [rollbackStep_state E c]
        | none =>
          show (rollbackStep E c).1.after = _
          rw [rollbackStep_state E c]

/-- After `SolveChange`, the command is the one given when after-inference
failed, and otherwise what command-inference left. -/
theorem SolveChange_command (E : Engines) (c : Change) :
    (SolveChange E c).1.command =
      match (afterStep E c).2 with
      | some _ => c.command
      | none => (commandStep E c).1.command := by
  rw [SolveChange_steps]
  cases h1 : (afterStep E c).2 with
  | some e1 =>
    show (afterStep E c).1.command = _
    rw [afterStep_state E c]
  | none =>
    cases h2 : (commandStep E c).2 with
    | some e2 => rfl
    | none =>
      cases h3 : (prettyStep E c).2 with
      | some e3 =>
        show (prettyStep E c).1.command = _
        rw [prettyStep_state E c]
      | none =>
        cases h4 : (rollbackStep E c).2 with
        | some e4 =>
          show (rollbackStep E c).1.command = _
          rw [rollbackStep_state E c]
        | none =>
          show (rollbackStep E c).1.command = _
          rw [rollbackStep_state E c]

/-- A successful `SolveChange` ran all four steps without error. -/
theorem SolveChange_success {E : Engines} {c : Change} (h : (SolveChange E c).2 = none) :
    (afterStep E c).2 = none ∧ (commandStep E c).2 = none ∧ (prettyStep E c).2 = none ∧
      (rollbackStep E c).2 = none ∧ (SolveChange E c).1 = (rollbackStep E c).1 := by
  rw [SolveChange_steps] at h ⊢
  cases h1 : (afterStep E c).2 with
  | some e1 => rw [h1] at h; cases h
  | none =>
    rw [h1] at h
    simp only at h
    cases h2 : (commandStep E c).2 with
    | some e2 => rw [h2] at h; cases h
    | none =>
      rw [h2] at h
      simp only at h
      cases h3 : (prettyStep E c).2 with
      | some e3 => rw [h3] at h; cases h
      | none =>
        rw [h3] at h
        simp only at h
        cases h4 : (rollbackStep E c).2 with
        | some e4 => rw [h4] at h; cases h
        | none => exact ⟨rfl, rfl, rfl, rfl, rfl⟩

/-- `SolveChange` keeps the command or, from Unknown, writes Set or Delete. -/
theorem SolveChange_command_cases (E : Engines) (c : Change) :
    (SolveChange E c).1.command = c.command ∨
      (c.command = MigratorUnknown ∧
        ((SolveChange E c).1.command = MigratorSet ∨
          (SolveChange E c).1.command = MigratorDelete)) := by
  rw [SolveChange_command]
  cases h1 : (afterStep E c).2 with
  | some e1 => exact Or.inl rfl
  | none =>
    simp only
    by_cases hc : c.command = MigratorUnknown
    · rcases commandStep_unknown E hc with ⟨_, _, h2⟩ | ⟨a, _, _, _, h2⟩ | ⟨_, _, h2⟩
      · exact Or.inl (by rw [h2, hc])
      · exact Or.inr ⟨hc, Or.inl h2⟩
      · exact Or.inr ⟨hc, Or.inr h2⟩
    · exact Or.inl (commandStep_explicit E hc).2

theorem isCommand_SolveChange (E : Engines) (c : Change) (h : isCommand c.command) :
    isCommand (SolveChange E c).1.command := by
  rcases SolveChange_command_cases E c with h1 | ⟨_, h1 | h1⟩
  · rw [h1]; exact h
  · rw [h1]; exact Or.inr (Or.inr (Or.inl rfl))
  · rw [h1]; exact Or.inr (Or.inr (Or.inr (Or.inr rfl)))

theorem isCommand_solveTimes (E : Engines) (c : Change) (h : isCommand c.command) (n : Nat) :
    isCommand (solveTimes E c n).command := by
  induction n with
  | zero => exact h
  | succ n ih => exact isCommand_SolveChange E _ ih

theorem solveTimes_before (E : Engines) (c : Change) (n : Nat) :
    (solveTimes E c n).before = c.before := by
  induction n with
  | zero => rfl
  | succ n ih =>
    show (SolveChange E (solveTimes E c n)).1.before = _
    rw [SolveChange_before, ih]

/-- C12, as stated, fails: `Command` is an `int`, and a Change constructed
with the value 7, which is none of the declared constants, resolves with
`errState` nil and keeps the command 7, which is none of Update, Set, Add,
Delete. -/
theorem errState_nil_with_undeclared_command :
    (SolveChange (specEngines prettydiff)
      (NewChange "test/test" (some sampleBefore) (some samplePatch) 7 .empty)).2 = none ∧
    (solveTimes (specEngines prettydiff)
      (NewChange "test/test" (some sampleBefore) (some samplePatch) 7 .empty) 1).errState
      = none ∧
    (solveTimes (specEngines prettydiff)
      (NewChange "test/test" (some sampleBefore) (some samplePatch) 7 .empty) 1).command = 7 ∧
    (7 : Command) ≠ MigratorUnknown ∧ (7 : Command) ≠ MigratorUpdate ∧
    (7 : Command) ≠ MigratorSet ∧ (7 : Command) ≠ MigratorAdd ∧
    (7 : Command) ≠ MigratorDelete ∧ ¬ isCommand 7 := by
  refine ⟨by decide, by decide, by decide, by decide, by decide, by decide, by decide,
    by decide, ?_⟩
  rintro (h | h | h | h | h) <;> exact absurd h (by decide)

/-- C12 (amended): over the states reached by `NewChange` followed by any
number `n` of `SolveChange` calls: `errState` is non-nil on the never-resolved
Change; after a call it is nil if and only if that call returned nil; and
whenever `errState` is nil, `before` and `after` are non-nil and the command
is not Unknown, and it is one of Update, Set, Add, Delete when the Change was
constructed with one of the five declared constants. -/
theorem errState_tells_the_truth (E : Engines) (docPath : String)
    (before patch : Option Object) (command : Command) (instruction : JsonText) (n : Nat) :
    (solveTimes E (NewChange docPath before patch command instruction) 0).errState ≠ none ∧
    ((solveTimes E (NewChange docPath before patch command instruction) (n + 1)).errState = none ↔
      (SolveChange E
        (solveTimes E (NewChange docPath before patch command instruction) n)).2 = none) ∧
    ((solveTimes E (NewChange docPath before patch command instruction) n).errState = none →
      (solveTimes E (NewChange docPath before patch command instruction) n).before ≠ none ∧
      (solveTimes E (NewChange docPath before patch command instruction) n).after ≠ none ∧
      (solveTimes E (NewChange docPath before patch command instruction) n).command
        ≠ MigratorUnknown ∧
      (isCommand command →
        (solveTimes E (NewChange docPath before patch command instruction) n).command
          = MigratorUpdate ∨
        (solveTimes E (NewChange docPath before patch command instruction) n).command
          = MigratorSet ∨
        (solveTimes E (NewChange docPath before patch command instruction) n).command
          = MigratorAdd ∨
        (solveTimes E (NewChange docPath before patch command instruction) n).command
          = MigratorDelete)) := by
  refine ⟨by simp [solveTimes, NewChange], ?_, ?_⟩
  · show (SolveChange E _).1.errState = none ↔ _
    rw [SolveChange_errState]
  · intro herr
    cases n with
    | zero => simp [solveTimes, NewChange] at herr
    | succ n =>
      have hok : (SolveChange E
          (solveTimes E (NewChange docPath before patch command instruction) n)).2 = none := by
        rw [← SolveChange_errState]; exact herr
      obtain ⟨h1, h2, h3, h4, hS⟩ := SolveChange_success hok
      obtain ⟨b, a, hb, ha⟩ := prettyStep_ok h3
      have hne := commandStep_ok h2
      have hcmd : (solveTimes E (NewChange docPath before patch command instruction)
          (n + 1)).command ≠ MigratorUnknown := by
        show (SolveChange E _).1.command ≠ _
        rw [SolveChange_command, h1]
        exact hne
      refine ⟨?_, ?_, hcmd, ?_⟩
      · show (SolveChange E _).1.before ≠ none
        rw [SolveChange_before, hb]
        simp
      · show (SolveChange E _).1.after ≠ none
        rw [SolveChange_after, ha]
        simp
      · intro hk
        have := isCommand_solveTimes E (NewChange docPath before patch command instruction)
          hk (n + 1)
        rcases this with h | h | h | h | h
        · exact absurd h hcmd
        · exact Or.inl h
        · exact Or.inr (Or.inl h)
        · exact Or.inr (Or.inr (Or.inl h))
        · exact Or.inr (Or.inr (Or.inr h))

/-- An instruction-driven change resolved once: `errState` is nil and the command is Set. -/
theorem errState_tells_the_truth_witness :
    (solveTimes (specEngines prettydiff) (NewChange "test/test" (some sampleBefore) none
      MigratorUnknown (.encoded (.obj samplePatch))) 1).errState = none ∧
    isCommand MigratorUnknown ∧
    (solveTimes (specEngines prettydiff) (NewChange "test/test" (some sampleBefore) none
      MigratorUnknown (.encoded (.obj samplePatch))) 1).command ≠ MigratorUnknown ∧
    ((solveTimes (specEngines prettydiff) (NewChange "test/test" (some sampleBefore) none
        MigratorUnknown (.encoded (.obj samplePatch))) 1).command = MigratorUpdate ∨
      (solveTimes (specEngines prettydiff) (NewChange "test/test" (some sampleBefore) none
        MigratorUnknown (.encoded (.obj samplePatch))) 1).command = MigratorSet ∨
      (solveTimes (specEngines prettydiff) (NewChange "test/test" (some sampleBefore) none
        MigratorUnknown (.encoded (.obj samplePatch))) 1).command = MigratorAdd ∨
      (solveTimes (specEngines prettydiff) (NewChange "test/test" (some sampleBefore) none
        MigratorUnknown (.encoded (.obj samplePatch))) 1).command = MigratorDelete) :=
  have h := (errState_tells_the_truth (specEngines prettydiff) "test/test" (some sampleBefore)
    none MigratorUnknown (.encoded (.obj samplePatch)) 1).2.2 (by decide)
  ⟨by decide, Or.inl rfl, h.2.2.1, h.2.2.2 (Or.inl rfl)⟩
/-- C14: for every Change, after `SolveChange` (successful or failed) the
fields `docPath`, `before`, `patch` and `instruction` are what they were, and
so is the command unless it was Unknown; only `after`, the command when it was
Unknown, `prettyDiff`, `rollback` and `errState` may change. -/
theorem inputs_not_modified (E : Engines) (c : Change) :
    (SolveChange E c).1.docPath = c.docPath ∧ (SolveChange E c).1.before = c.before ∧
      (SolveChange E c).1.patch = c.patch ∧
      (SolveChange E c).1.instruction = c.instruction ∧
      (c.command ≠ MigratorUnknown → (SolveChange E c).1.command = c.command) ∧
      ∃ a k s r e, (SolveChange E c).1 =
        { c with after := a, command := k, prettyDiff := s, rollback := r, errState := e } := by
  obtain ⟨a, k, s, r, e, h⟩ := SolveChange_writes E c
  refine ⟨by rw [h], by rw [h], by rw [h], by rw [h], ?_, a, k, s, r, e, h⟩
  intro hc
  rcases SolveChange_command_cases E c with h1 | ⟨h1, _⟩
  · exact h1
  · exact absurd h1 hc

/-- The update scenario of the tests: the patch and the command are what was given. -/
theorem inputs_not_modified_witness :
    (NewChange "test/test" (some sampleBefore) (some samplePatch) MigratorUpdate .empty).command
      ≠ MigratorUnknown ∧
    (SolveChange (specEngines prettydiff) (NewChange "test/test" (some sampleBefore)
      (some samplePatch) MigratorUpdate .empty)).1.patch = some samplePatch ∧
    (SolveChange (specEngines prettydiff) (NewChange "test/test" (some sampleBefore)
      (some samplePatch) MigratorUpdate .empty)).1.command = MigratorUpdate :=
  ⟨by decide,
    (inputs_not_modified (specEngines prettydiff) (NewChange "test/test" (some sampleBefore)
      (some samplePatch) MigratorUpdate .empty)).2.2.1,
    (inputs_not_modified (specEngines prettydiff) (NewChange "test/test" (some sampleBefore)
      (some samplePatch) MigratorUpdate .empty)).2.2.2.2.1 (by decide)⟩

/-- C16: for every Change and every store, `pushChange` is exactly one store
call, chosen by `command` alone: Update calls `UpdateDoc` with `docPath` and
`patch`, Set and Add call `SetDoc` with `docPath` and `patch`, every other
command (Delete, Unknown, any other value) calls `DeleteDoc` with `docPath`;
the store state and the error of that call are returned unchanged, and the
result does not depend on `errState`, `after`, `rollback` or `prettyDiff`. -/
theorem pushChange_dispatch {σ : Type} (database : Firestore σ) (c : Change) (s : σ) :
    (c.command = MigratorUpdate →
      pushChange database c s = database.UpdateDoc c.docPath c.patch s) ∧
    (c.command = MigratorSet ∨ c.command = MigratorAdd →
      pushChange database c s = database.SetDoc c.docPath c.patch s) ∧
    (c.command ≠ MigratorUpdate → c.command ≠ MigratorSet → c.command ≠ MigratorAdd →
      pushChange database c s = database.DeleteDoc c.docPath s) ∧
    (∀ (e : Option Error) (a : Option Object) (r : JsonText) (p : String),
      pushChange database { c with errState := e, after := a, rollback := r, prettyDiff := p } s
        = pushChange database c s) := by
  refine ⟨?_, ?_, ?_, ?_⟩
  · intro h
    unfold pushChange
    rw [if_pos h]
  · intro h
    unfold pushChange
    rcases h with h | h
    · rw [if_neg (by rw [h]; decide), if_pos h]
    · rw [if_neg (by rw [h]; decide), if_neg (by rw [h]; decide), if_pos h]
  · intro h1 h2 h3
    unfold pushChange
    rw [if_neg h1, if_neg h2, if_neg h3]
  · intro e a r p
    rfl

/-- On the recording store: an Update change makes the one call `UpdateDoc`, a change with the
Unknown command the one call `DeleteDoc`. -/
theorem pushChange_dispatch_witness :
    (NewChange "test/test" (some sampleBefore) (some samplePatch) MigratorUpdate .empty).command
      = MigratorUpdate ∧
    pushChange recorder
      (NewChange "test/test" (some sampleBefore) (some samplePatch) MigratorUpdate .empty) []
      = ([StoreCall.update "test/test" (some samplePatch)], none) ∧
    pushChange recorder
      (NewChange "test/test" (some sampleBefore) (some samplePatch) MigratorUnknown .empty) []
      = ([StoreCall.delete "test/test"], none) :=
  ⟨rfl,
    (pushChange_dispatch recorder (NewChange "test/test" (some sampleBefore) (some samplePatch)
      MigratorUpdate .empty) []).1 rfl,
    (pushChange_dispatch recorder (NewChange "test/test" (some sampleBefore) (some samplePatch)
      MigratorUnknown .empty) []).2.2.1 (by decide) (by decide) (by decide)⟩

/-- C13, as stated, fails: the empty string is not well-formed JSON text, yet
a fresh Change with the Unknown command, a `before`, no `patch` and the empty
instruction fails with the MissingInput error of after-inference, not with a
ParseError. -/
theorem malformed_instruction_fails_on_empty :
    decodePatch .empty = .error .parseError ∧
    (SolveChange (specEngines prettydiff)
      (NewChange "test/test" (some sampleBefore) none MigratorUnknown .empty)).2
        = some .needBeforeAndPatch ∧
    Error.needBeforeAndPatch ≠ Error.parseError ∧
    Error.isMissingInput .needBeforeAndPatch = true :=
  ⟨rfl, by decide, by decide, rfl⟩

/-- C13 (amended): for every freshly constructed Change with command Update or
Unknown, a non-nil `before` and a nil `patch`: when `instruction` is a
non-empty text that is not well-formed JSON, `SolveChange` with the engines of
the spec fails with a ParseError raised in after-inference; when `instruction`
is the empty string it fails with the MissingInput error of after-inference.
In both cases `errState` holds the error, `before` is unchanged and `after`,
`prettyDiff` and `rollback` remain unset. -/
theorem malformed_instruction_rejected (render : Object → Object → Except Error String)
    (docPath : String) (b : Object) (command : Command) (instruction : JsonText) (e : Error)
    (hcmd : command = MigratorUpdate ∨ command = MigratorUnknown)
    (hi : (∃ raw, instruction = .malformed raw ∧ e = .parseError) ∨
      (instruction = .empty ∧ e = .needBeforeAndPatch)) :
    (SolveChange (specEngines render)
      (NewChange docPath (some b) none command instruction)).2 = some e ∧
    (afterStep (specEngines render)
      (NewChange docPath (some b) none command instruction)).2 = some e ∧
    (SolveChange (specEngines render)
      (NewChange docPath (some b) none command instruction)).1.errState = some e ∧
    (SolveChange (specEngines render)
      (NewChange docPath (some b) none command instruction)).1.before = some b ∧
    (SolveChange (specEngines render)
      (NewChange docPath (some b) none command instruction)).1.after = none ∧
    (SolveChange (specEngines render)
      (NewChange docPath (some b) none command instruction)).1.prettyDiff = "" ∧
    (SolveChange (specEngines render)
      (NewChange docPath (some b) none command instruction)).1.rollback = .empty := by
  have h1 : command ≠ MigratorSet := by rcases hcmd with h | h <;> rw [h] <;> decide
  have h2 : command ≠ MigratorAdd := by rcases hcmd with h | h <;> rw [h] <;> decide
  have h3 : command ≠ MigratorDelete := by rcases hcmd with h | h <;> rw [h] <;> decide
  have hA : (afterStep (specEngines render)
      (NewChange docPath (some b) none command instruction)).2 = some e := by
    rcases hi with ⟨raw, hi, he⟩ | ⟨hi, he⟩ <;> subst hi <;> subst he <;>
      simp [afterStep, inferAfter, NewChange, h1, h2, h3, JsonText.isEmpty, specEngines,
        applyDiffPatch, marshalMap, decodeRoot, decodePatch]
  have hS : (SolveChange (specEngines render)
      (NewChange docPath (some b) none command instruction)).2 = some e := by
    rw [SolveChange_steps, hA]
  obtain ⟨hE, hR, hcase⟩ := SolveChange_failure _ _ e hS
  rcases hcase with ⟨_, ha, _, hp⟩ | ⟨hn, _⟩ | ⟨hn, _⟩ | ⟨hn, _⟩
  · exact ⟨hS, hA, hE, SolveChange_before _ _, ha, hp, hR⟩
  · rw [hA] at hn; cases hn
  · rw [hA] at hn; cases hn
  · rw [hA] at hn; cases hn

/-- A change whose instruction is text that does not decode fails with a ParseError. -/
theorem malformed_instruction_rejected_witness :
    (MigratorUnknown = MigratorUpdate ∨ MigratorUnknown = MigratorUnknown) ∧
    ((∃ raw, JsonText.malformed "a:1" = .malformed raw ∧ Error.parseError = .parseError) ∨
      (JsonText.malformed "a:1" = .empty ∧ Error.parseError = .needBeforeAndPatch)) ∧
    (SolveChange (specEngines prettydiff)
      (NewChange "test/test" (some sampleBefore) none MigratorUnknown (.malformed "a:1"))).2
        = some .parseError ∧
    (SolveChange (specEngines prettydiff)
      (NewChange "test/test" (some sampleBefore) none MigratorUnknown
        (.malformed "a:1"))).1.after = none :=
  have h := malformed_instruction_rejected prettydiff "test/test" sampleBefore MigratorUnknown
    (.malformed "a:1") .parseError (Or.inr rfl) (Or.inl ⟨"a:1", rfl, rfl⟩)
  ⟨Or.inr rfl, Or.inl ⟨"a:1", rfl, rfl⟩, h.1, h.2.2.2.2.1⟩
/-! ## Minimality of the diff -/

theorem diffVal_self (v : Value) (h : ∀ m, v = .obj m → diff m m = []) :
    diffVal (some v) v = none := by
  cases v with
  | obj m => simp [diffVal, h m rfl]
  | null => simp [diffVal, Value.beq]
  | bool x => simp [diffVal, Value.beq]
  | num x => simp [diffVal, Value.beq]
  | str x => simp [diffVal, Value.beq]
  | arr xs => simp [diffVal, (Value.beq_iff (.arr xs) (.arr xs)).2 rfl]

theorem diff_self_of_size (n : Nat) :
    ∀ a : Object, sizeOf a < n → Object.canon a = true → diff a a = [] := by
  induction n with
  | zero => intro a h; exact absurd h (Nat.not_lt_zero _)
  | succ n ih =>
    intro a hsz ha
    have hsa := ((Object.canon_iff a).1 ha).1
    apply Object.ext_of_lookup (sortedKeys_diff a a) (n := []) rfl
    intro j
    rw [lookup_diff a hsa j]
    cases hj : Object.lookup j a with
    | none => rfl
    | some v =>
      show diffVal (some v) v = none
      apply diffVal_self
      rintro m rfl
      have hlt := Object.sizeOf_lookup hj
      have hlt2 : sizeOf m < n := by
        simp at hlt
        omega
      exact ih m hlt2 (Object.canon_lookup ha hj)

/-- The diff of a document with itself is empty. -/
theorem diff_self {a : Object} (ha : Object.canon a = true) : diff a a = [] :=
  diff_self_of_size (sizeOf a + 1) a (Nat.lt_succ_self _) ha

/-- C15: for all Objects `a` and `b` (maps in canonical form): a key under
which `a` and `b` hold equal values (or that neither has) does not appear in
`diff a b`; under a key where both hold an Object the patch holds exactly the
diff of the two nested Objects, and nothing when that diff is empty, so the
same holds inside every nested diff; and `diff a a` is the empty Object. -/
theorem diff_minimal (a b : Object) (ha : Object.canon a = true)
    (hb : Object.canon b = true) :
    (∀ k, Object.lookup k a = Object.lookup k b → Object.lookup k (diff a b) = none) ∧
    (∀ k ma mb, Object.lookup k a = some (.obj ma) → Object.lookup k b = some (.obj mb) →
      Object.canon ma = true ∧ Object.canon mb = true ∧
      Object.lookup k (diff a b) =
        if (diff ma mb).isEmpty then none else some (.obj (diff ma mb))) ∧
    diff a a = [] := by
  have hsb := ((Object.canon_iff b).1 hb).1
  refine ⟨?_, ?_, diff_self ha⟩
  · intro k hk
    rw [lookup_diff a hsb k]
    cases hkb : Object.lookup k b with
    | none =>
      rw [hkb] at hk
      simp [hk]
    | some v =>
      rw [hkb] at hk
      simp only [hk]
      apply diffVal_self
      rintro m rfl
      exact diff_self (Object.canon_lookup hb hkb)
  · intro k ma mb hka hkb
    refine ⟨Object.canon_lookup ha hka, Object.canon_lookup hb hkb, ?_⟩
    rw [lookup_diff a hsb k, hkb, hka]
    rfl

/-- The rollback of the update scenario: the unchanged key `b` is absent from the diff, and
under `e` the diff holds only the changed member `f`. -/
theorem diff_minimal_witness :
    Object.canon sampleAfter = true ∧ Object.canon sampleBefore = true ∧
    Object.lookup "b" sampleAfter = Object.lookup "b" sampleBefore ∧
    Object.lookup "b" (diff sampleAfter sampleBefore) = none ∧
    Object.lookup "e" (diff sampleAfter sampleBefore)
      = some (.obj [("f", .str "foo")]) ∧
    diff sampleAfter sampleAfter = [] :=
  have h := diff_minimal sampleAfter sampleBefore (by decide) (by decide)
  ⟨by decide, by decide, by decide, h.1 "b" (by decide), by decide, h.2.2⟩
/-! ## Instruction-driven changes and what is pushed -/

/-- After-inference with an explicit Set or Add command takes the patch. -/
theorem afterStep_set_add (E : Engines) {c : Change}
    (h : c.command = MigratorSet ∨ c.command = MigratorAdd) :
    (afterStep E c).2 = none ∧ (afterStep E c).1.after = c.patch := by
  unfold afterStep inferAfter
  rcases h with h | h
  · rw [if_pos h]
    exact ⟨rfl, rfl⟩
  · rw [if_neg (by rw [h]; decide), if_pos h]
    exact ⟨rfl, rfl⟩

/-- C17 on the code: whatever the engines do, the `after` of a Change with a
non-nil `patch` does not depend on the instruction, which is never read; with
the engines of the spec, a Change with the Unknown command, a `before`, the
empty non-nil Object as `patch` and a well-formed instruction gets as `after`
the decoded `before` (`before` itself when its numbers are float64).  On the
input of the test `before_instruction` the resolution succeeds with `after` =
`before`, an empty rollback and the command Set, where the test expects the
merged document, and merging the instruction would have given a different
document. -/
theorem empty_patch_shadows_instruction :
    (∀ (E : Engines) (docPath : String) (before : Option Object) (p : Object)
        (command : Command) (i j : JsonText),
      (SolveChange E (NewChange docPath before (some p) command i)).1.after
        = (SolveChange E (NewChange docPath before (some p) command j)).1.after) ∧
    (∀ (render : Object → Object → Except Error String) (docPath : String) (b p : Object),
      (SolveChange (specEngines render)
        (NewChange docPath (some b) (some []) MigratorUnknown (.encoded (.obj p)))).1.after
        = some (Value.unmarshalMembers b)) ∧
    (SolveChange (specEngines prettydiff) (NewChange "test/test" (some sampleBefore) (some [])
      MigratorUnknown (.encoded (.obj samplePatch)))).2 = none ∧
    (SolveChange (specEngines prettydiff) (NewChange "test/test" (some sampleBefore) (some [])
      MigratorUnknown (.encoded (.obj samplePatch)))).1.after = some sampleBefore ∧
    (SolveChange (specEngines prettydiff) (NewChange "test/test" (some sampleBefore) (some [])
      MigratorUnknown (.encoded (.obj samplePatch)))).1.rollback = .encoded (.obj []) ∧
    (SolveChange (specEngines prettydiff) (NewChange "test/test" (some sampleBefore) (some [])
      MigratorUnknown (.encoded (.obj samplePatch)))).1.command = MigratorSet ∧
    merge sampleBefore samplePatch = sampleAfter ∧ sampleAfter ≠ sampleBefore ∧
    diff sampleAfter sampleBefore = sampleRollback ∧ sampleRollback ≠ [] := by
  refine ⟨?_, ?_, by decide, by decide, by decide, by decide, by decide, by decide, by decide,
    by decide⟩
  · intro E docPath before p command i j
    rw [SolveChange_after, SolveChange_after]
    unfold afterStep inferAfter
    simp only [NewChange, Option.isSome_some, Option.isNone_some, Bool.false_and, Bool.or_false,
      if_true]
    split_ifs
    · rfl
    · rfl
    · rfl
    · rfl
    · cases E.applyDiffPatch (marshalMap before) (marshalMap (some p)) <;> rfl
  intro render docPath b p
  rw [SolveChange_after]
  unfold afterStep
  have h1 : MigratorUnknown ≠ MigratorSet := by decide
  have h2 : MigratorUnknown ≠ MigratorAdd := by decide
  have h3 : MigratorUnknown ≠ MigratorDelete := by decide
  rw [inferAfter_merge render (b := b) (p := []) h1 h2 h3 rfl (Or.inl rfl)]
  rfl

/-- C18, as stated, fails: a Change constructed with the Unknown command, the
non-empty `before` of the tests and the instruction of the tests resolves with
the non-empty `after` the test expects, and its command is Set, not Update;
with the empty patch of the test `before_instruction` the command is Set too. -/
theorem instruction_command_is_not_update :
    (SolveChange (specEngines prettydiff) (NewChange "test/test" (some sampleBefore) none
      MigratorUnknown (.encoded (.obj samplePatch)))).2 = none ∧
    (SolveChange (specEngines prettydiff) (NewChange "test/test" (some sampleBefore) none
      MigratorUnknown (.encoded (.obj samplePatch)))).1.after = some sampleAfter ∧
    sampleBefore ≠ [] ∧ sampleAfter ≠ [] ∧
    (SolveChange (specEngines prettydiff) (NewChange "test/test" (some sampleBefore) none
      MigratorUnknown (.encoded (.obj samplePatch)))).1.command = MigratorSet ∧
    (SolveChange (specEngines prettydiff) (NewChange "test/test" (some sampleBefore) (some [])
      MigratorUnknown (.encoded (.obj samplePatch)))).1.command = MigratorSet ∧
    MigratorSet ≠ MigratorUpdate := by
  decide

/-- C18 (amended): for a Change constructed with the Unknown command, whatever
the engines do, if `SolveChange` leaves a non-empty `after` then the command
after `SolveChange` is Set. -/
theorem instruction_command_is_set (E : Engines) (docPath : String)
    (before patch : Option Object) (instruction : JsonText) (a : Object)
    (ha : (SolveChange E (NewChange docPath before patch MigratorUnknown instruction)).1.after
      = some a)
    (hne : a ≠ []) :
    (SolveChange E (NewChange docPath before patch MigratorUnknown instruction)).1.command
      = MigratorSet := by
  rw [SolveChange_after] at ha
  rw [SolveChange_command]
  cases h1 : (afterStep E (NewChange docPath before patch MigratorUnknown instruction)).2 with
  | some e =>
    rw [afterStep_error h1] at ha
    cases ha
  | none =>
    simp only
    rcases commandStep_unknown E
        (c := NewChange docPath before patch MigratorUnknown instruction) rfl
      with ⟨h2, _, _⟩ | ⟨_, _, _, _, h2⟩ | ⟨h2, _, _⟩
    · rw [h2] at ha; cases ha
    · exact h2
    · rw [h2] at ha
      exact absurd (Option.some.inj ha).symm hne

/-- The instruction-driven change of the tests, with a nil patch: `after` is non-empty and
the command is Set. -/
theorem instruction_command_is_set_witness :
    (SolveChange (specEngines prettydiff) (NewChange "test/test" (some sampleBefore) none
      MigratorUnknown (.encoded (.obj samplePatch)))).1.after = some sampleAfter ∧
    sampleAfter ≠ [] ∧
    (SolveChange (specEngines prettydiff) (NewChange "test/test" (some sampleBefore) none
      MigratorUnknown (.encoded (.obj samplePatch)))).1.command = MigratorSet :=
  ⟨by decide, by decide,
    instruction_command_is_set (specEngines prettydiff) "test/test" (some sampleBefore) none
      (.encoded (.obj samplePatch)) sampleAfter (by decide) (by decide)⟩

/-- C19: re-resolution is not idempotent.  For every Change with the Unknown
command and a nil `patch` on which a first `SolveChange` succeeds with a
non-empty `after`, the first call replaces the command by Set, and a second
`SolveChange` on the resulting object fails in the pretty-diff step with
`after` reset to nil (the nil `patch`).  The instruction-driven change of the
tests is such a Change. -/
theorem re_resolution_not_idempotent :
    (∀ (E : Engines) (c : Change), c.command = MigratorUnknown → c.patch = none →
      (SolveChange E c).2 = none → (SolveChange E c).1.after ≠ some [] →
      (SolveChange E c).1.command = MigratorSet ∧
      (SolveChange E (SolveChange E c).1).2 = some .needBeforeAfterForPrettyDiff ∧
      (SolveChange E (SolveChange E c).1).1.after = none ∧
      (SolveChange E (SolveChange E c).1).1.after ≠ (SolveChange E c).1.after) ∧
    (∃ (E : Engines) (c : Change), c.command = MigratorUnknown ∧ c.before ≠ none ∧
      c.patch = none ∧ (SolveChange E c).2 = none ∧
      (SolveChange E (SolveChange E c).1).2 ≠ none ∧
      (SolveChange E (SolveChange E c).1).1 ≠ (SolveChange E c).1) := by
  have hgen : ∀ (E : Engines) (c : Change), c.command = MigratorUnknown → c.patch = none →
      (SolveChange E c).2 = none → (SolveChange E c).1.after ≠ some [] →
      (SolveChange E c).1.command = MigratorSet ∧
      (SolveChange E (SolveChange E c).1).2 = some .needBeforeAfterForPrettyDiff ∧
      (SolveChange E (SolveChange E c).1).1.after = none ∧
      (SolveChange E (SolveChange E c).1).1.after ≠ (SolveChange E c).1.after := by
    intro E c hcmd hpatch hok hne
    obtain ⟨h1, h2, h3, h4, hS⟩ := SolveChange_success hok
    obtain ⟨b, a, hb, ha⟩ := prettyStep_ok h3
    have hafter : (SolveChange E c).1.after = some a := by rw [SolveChange_after, ha]
    have hset : (SolveChange E c).1.command = MigratorSet := by
      rw [SolveChange_command, h1]
      simp only
      rcases commandStep_unknown E hcmd with ⟨_, h5, _⟩ | ⟨_, _, _, _, h5⟩ | ⟨h5, _, _⟩
      · rw [h5] at h2; cases h2
      · exact h5
      · rw [SolveChange_after, h5] at hne
        exact absurd rfl hne
    have hp : (SolveChange E c).1.patch = none := by
      obtain ⟨a', k, s, r, e, h⟩ := SolveChange_writes E c
      rw [h]; exact hpatch
    have hA := afterStep_set_add E (c := (SolveChange E c).1) (Or.inl hset)
    have hC := commandStep_explicit E (c := (SolveChange E c).1) (by rw [hset]; decide)
    have hafter2 : (SolveChange E (SolveChange E c).1).1.after = none := by
      rw [SolveChange_after, hA.2, hp]
    have hP : (prettyStep E (SolveChange E c).1).2 = some .needBeforeAfterForPrettyDiff := by
      have hca : (commandStep E (SolveChange E c).1).1.after = none := by
        rw [commandStep_state, hA.2, hp]
      unfold prettyStep inferPrettyDiff
      rw [hca]
      cases (commandStep E (SolveChange E c).1).1.before <;> rfl
    refine ⟨hset, ?_, hafter2, ?_⟩
    · rw [SolveChange_steps E (SolveChange E c).1, hA.1, hC.1, hP]
    · rw [hafter2, hafter]
      simp
  refine ⟨hgen, specEngines prettydiff,
    NewChange "test/test" (some sampleBefore) none MigratorUnknown (.encoded (.obj samplePatch)),
    rfl, by decide, rfl, by decide, by decide, by decide⟩

/-- The instruction-driven change of the tests resolves once with the command Set, and the
second resolution fails. -/
theorem re_resolution_not_idempotent_witness :
    (NewChange "test/test" (some sampleBefore) none MigratorUnknown
      (.encoded (.obj samplePatch))).command = MigratorUnknown ∧
    (SolveChange (specEngines prettydiff) (NewChange "test/test" (some sampleBefore) none
      MigratorUnknown (.encoded (.obj samplePatch)))).2 = none ∧
    (SolveChange (specEngines prettydiff) (NewChange "test/test" (some sampleBefore) none
      MigratorUnknown (.encoded (.obj samplePatch)))).1.command = MigratorSet ∧
    (SolveChange (specEngines prettydiff) (SolveChange (specEngines prettydiff)
      (NewChange "test/test" (some sampleBefore) none MigratorUnknown
        (.encoded (.obj samplePatch)))).1).2 = some .needBeforeAfterForPrettyDiff :=
  have h := re_resolution_not_idempotent.1 (specEngines prettydiff)
    (NewChange "test/test" (some sampleBefore) none MigratorUnknown
      (.encoded (.obj samplePatch))) rfl rfl (by decide) (by decide)
  ⟨rfl, by decide, h.1, h.2.1⟩

/-- C20 on the code: the instruction-driven change of the tests resolves with
the inferred command Set and `after` the merged document, and `pushChange`
passes the nil `patch` to `SetDoc`, not `after`; given as a structured patch
with the Unknown command, the same change passes the partial patch to
`SetDoc`, which is not the merged document either. -/
theorem pushed_is_not_after_when_inferred :
    (SolveChange (specEngines prettydiff) (NewChange "test/test" (some sampleBefore) none
      MigratorUnknown (.encoded (.obj samplePatch)))).2 = none ∧
    (SolveChange (specEngines prettydiff) (NewChange "test/test" (some sampleBefore) none
      MigratorUnknown (.encoded (.obj samplePatch)))).1.command = MigratorSet ∧
    (SolveChange (specEngines prettydiff) (NewChange "test/test" (some sampleBefore) none
      MigratorUnknown (.encoded (.obj samplePatch)))).1.after = some sampleAfter ∧
    pushChange recorder (SolveChange (specEngines prettydiff) (NewChange "test/test"
      (some sampleBefore) none MigratorUnknown (.encoded (.obj samplePatch)))).1 []
      = ([StoreCall.set "test/test" none], none) ∧
    (SolveChange (specEngines prettydiff) (NewChange "test/test" (some sampleBefore)
      (some samplePatch) MigratorUnknown .empty)).2 = none ∧
    (SolveChange (specEngines prettydiff) (NewChange "test/test" (some sampleBefore)
      (some samplePatch) MigratorUnknown .empty)).1.after = some sampleAfter ∧
    pushChange recorder (SolveChange (specEngines prettydiff) (NewChange "test/test"
      (some sampleBefore) (some samplePatch) MigratorUnknown .empty)).1 []
      = ([StoreCall.set "test/test" (some samplePatch)], none) ∧
    samplePatch ≠ sampleAfter := by
  decide

/-- The sibling path with an explicit command: for every Change whose command
on entry is Set or Add, after `SolveChange` (the command is unchanged) the
document that `pushChange` passes to `SetDoc` is the Change's computed
`after`; both are the `patch`. -/
theorem pushed_is_after_when_explicit {σ : Type} (E : Engines) (database : Firestore σ)
    (c : Change) (s : σ) (h : c.command = MigratorSet ∨ c.command = MigratorAdd) :
    ((SolveChange E c).1.command = MigratorSet ∨ (SolveChange E c).1.command = MigratorAdd) ∧
    (SolveChange E c).1.after = c.patch ∧
    pushChange database (SolveChange E c).1 s
      = database.SetDoc c.docPath (SolveChange E c).1.after s := by
  have hne : c.command ≠ MigratorUnknown := by rcases h with h | h <;> rw [h] <;> decide
  have hcmd : (SolveChange E c).1.command = c.command := by
    rcases SolveChange_command_cases E c with h1 | ⟨h1, _⟩
    · exact h1
    · exact absurd h1 hne
  have hafter : (SolveChange E c).1.after = c.patch := by
    rw [SolveChange_after, (afterStep_set_add E h).2]
  obtain ⟨a, k, r, p, e, hw⟩ := SolveChange_writes E c
  have hpatch : (SolveChange E c).1.patch = c.patch := by rw [hw]
  have hpath : (SolveChange E c).1.docPath = c.docPath := by rw [hw]
  refine ⟨by rw [hcmd]; exact h, hafter, ?_⟩
  unfold pushChange
  rw [hcmd, hpatch, hpath, hafter]
  rcases h with h | h
  · rw [if_neg (by rw [h]; decide), if_pos h]
  · rw [if_neg (by rw [h]; decide), if_neg (by rw [h]; decide), if_pos h]

/-- The Set scenario of the tests on the recording store: the one call is `SetDoc` with the
computed `after`. -/
theorem pushed_is_after_when_explicit_witness :
    ((NewChange "test/test" (some sampleBefore) (some samplePatch) MigratorSet .empty).command
        = MigratorSet ∨
      (NewChange "test/test" (some sampleBefore) (some samplePatch) MigratorSet .empty).command
        = MigratorAdd) ∧
    (SolveChange (specEngines prettydiff) (NewChange "test/test" (some sampleBefore)
      (some samplePatch) MigratorSet .empty)).2 = none ∧
    pushChange recorder (SolveChange (specEngines prettydiff) (NewChange "test/test"
      (some sampleBefore) (some samplePatch) MigratorSet .empty)).1 []
      = recorder.SetDoc "test/test" (SolveChange (specEngines prettydiff) (NewChange "test/test"
        (some sampleBefore) (some samplePatch) MigratorSet .empty)).1.after [] :=
  ⟨Or.inl rfl, by decide,
    (pushed_is_after_when_explicit (specEngines prettydiff) recorder (NewChange "test/test"
      (some sampleBefore) (some samplePatch) MigratorSet .empty) [] (Or.inl rfl)).2.2⟩

end GoFig
